/-
Verification of the externis event-timeline tracker (`src/tracking.cc`).

This file gives a shallow embedding of the tracking state machine of the
externis GCC plugin: the path normalizer, the preprocessing stack tracker,
the scope/function tracker, the pass tracker and the per-tracker emission
routines.  The C++ global variables become the fields of `TrackingState`;
each C++ function that reads the clock (`ns_from_start()`) takes the clock
reading `now : Int` as an explicit argument, so that theorems can quantify
over arbitrary clock behaviours (stalled clocks included).  `map_t` /
`set_t` (ordered or hashed containers in the original) are embedded as
association lists / lists; no theorem below depends on iteration order.
Nanosecond timestamps are `int64_t` in the original; they are embedded as
`Int` (signed overflow is undefined in C++ and no claim concerns wrap).
-/
import Mathlib

namespace Externis

/-- Timestamp span, from `externis.h` usage: `{start, end}` in nanoseconds.
(`end` is a Lean keyword, hence the field name `end_`.) -/
structure TimeSpan where
  start : Int
  end_ : Int
deriving DecidableEq, Repr

/-- The event category enumeration from `externis.h` usage in `tracking.cc`. -/
inductive EventCategory where
  | PREPROCESS
  | FUNCTION
  | NAMESPACE
  | STRUCT
  | GIMPLE_PASS
  | RTL_PASS
  | SIMPLE_IPA_PASS
  | IPA_PASS
  | UNKNOWN
deriving DecidableEq, Repr

/-- GCC's `opt_pass_type` enumeration (`tree-pass.h`), as consumed by
`pass_type` in `tracking.cc`. -/
inductive OptPassType where
  | GIMPLE_PASS
  | RTL_PASS
  | SIMPLE_IPA_PASS
  | IPA_PASS
deriving DecidableEq, Repr

/-- The fields of GCC's `opt_pass` that `tracking.cc` reads:
`name`, `type` and `static_pass_number`. -/
structure OptPass where
  name : String
  type : OptPassType
  static_pass_number : Int
deriving DecidableEq, Repr

/-- Modelled from the spec: `TraceEvent` is declared in `externis.h`
(missing from `src/`); per the spec a trace record carries a name, a
category, a start/end span and an optional flat string-to-string argument
mapping (the `Bool` is the `first` component of the `std::make_pair` used
at every `add_event` call site in `tracking.cc`: whether arguments are
present). -/
structure TraceEvent where
  name : String
  category : EventCategory
  ts : TimeSpan
  args : Bool × List (String × String)
deriving DecidableEq, Repr

/-- `struct OptPassEvent` from `tracking.cc`: a (possibly null) pass
pointer plus a span. -/
structure OptPassEvent where
  pass : Option OptPass
  ts : TimeSpan
deriving DecidableEq, Repr

/-- `struct ScopeEvent` from `tracking.cc`. -/
structure ScopeEvent where
  name : String
  type : EventCategory
  ts : TimeSpan
deriving DecidableEq, Repr

/-- `struct FunctionEvent` from `tracking.cc`. -/
structure FunctionEvent where
  name : String
  file_name : String
  ts : TimeSpan
deriving DecidableEq, Repr

/-- `struct FinishedFunction` (declared in `externis.h`, populated in
`externis.cc::cb_finish_parse_function`): the fields `tracking.cc` reads.
`scope_name` is a nullable `const char*`, hence `Option String`. -/
structure FinishedFunction where
  name : String
  file_name : String
  scope_name : Option String
  scope_type : EventCategory
deriving DecidableEq, Repr

/-! ### Association-list embedding of `map_t` / `set_t` -/

/-- `m.count(k)`-then-`m[k]` reading of a `map_t`. -/
def lookupA (k : String) : List (String × α) → Option α
  | [] => none
  | (k', v) :: rest => if k' = k then some v else lookupA k rest

/-- `m.count(k) != 0`. -/
def containsA (k : String) (m : List (String × α)) : Bool :=
  (lookupA k m).isSome

/-- `m[k] = v` (insert or overwrite). -/
def mapSet (k : String) (v : α) : List (String × α) → List (String × α)
  | [] => [(k, v)]
  | (k', v') :: rest => if k' = k then (k, v) :: rest else (k', v') :: mapSet k v rest

/-- `s.insert(x)` on a `set_t`. -/
def setInsert (x : String) (s : List String) : List String :=
  if x ∈ s then s else s ++ [x]

/-! ### The tracker state: the file-level globals of `tracking.cc` -/

/-- `CIRCULAR_POISON_VALUE` from `tracking.cc`. -/
def CIRCULAR_POISON_VALUE : String := "CIRCULAR_POISON_VALUE_95d6021c"

/-- All the mutable file-scope state of `tracking.cc` (plus the
function-local `static bool did_last_function_have_scope` of
`end_parse_function`). -/
structure TrackingState where
  preprocess_start : List (String × Int)
  preprocess_end : List (String × Int)
  preprocessing_stack : List String
  last_function_parsed_ts : Int
  last_pass : OptPassEvent
  pass_events : List OptPassEvent
  file_to_include_directory : List (String × String)
  normalized_files_map : List (String × String)
  normalized_files : List String
  conflicted_files : List String
  scope_events : List ScopeEvent
  function_events : List FunctionEvent
  did_last_function_have_scope : Bool
deriving DecidableEq, Repr

/-- The zero-initialized state of the globals at plugin start. -/
def initialState : TrackingState where
  preprocess_start := []
  preprocess_end := []
  preprocessing_stack := []
  last_function_parsed_ts := 0
  last_pass := ⟨none, ⟨0, 0⟩⟩
  pass_events := []
  file_to_include_directory := []
  normalized_files_map := []
  normalized_files := []
  conflicted_files := []
  scope_events := []
  function_events := []
  did_last_function_have_scope := false

/-! ### Path normalizer -/

/-- `starts_with(check, match)` from `tracking.cc`. -/
def starts_with (check m : String) : Bool :=
  check.length ≥ m.length && check.take m.length == m

/-- `register_include_location(file_name, dir_name)` from `tracking.cc`. -/
def register_include_location (s : TrackingState) (file_name dir_name : String) :
    TrackingState :=
  if containsA file_name s.file_to_include_directory then s
  else
    let s := { s with file_to_include_directory :=
                 mapSet file_name dir_name s.file_to_include_directory }
    if starts_with file_name dir_name then
      -- +1 for path separator.
      let normalized_file := file_name.drop (dir_name.length + 1)
      let s := { s with normalized_files_map :=
                   mapSet file_name normalized_file s.normalized_files_map }
      if normalized_file ∈ s.normalized_files then
        { s with conflicted_files := setInsert normalized_file s.conflicted_files }
      else
        { s with normalized_files := setInsert normalized_file s.normalized_files }
    else
      -- "Externis warning: Can't normalize paths ..." - diagnostic only.
      s

/-- `normalized_file_name(file_name)` from `tracking.cc`. -/
def normalized_file_name (s : TrackingState) (file_name : String) : String :=
  match lookupA file_name s.normalized_files_map with
  | some n => if n ∈ s.conflicted_files then file_name else n
  | none => file_name

/-- `pass_type(type)` from `tracking.cc`. -/
def pass_type : OptPassType → EventCategory
  | OptPassType.GIMPLE_PASS => EventCategory.GIMPLE_PASS
  | OptPassType.RTL_PASS => EventCategory.RTL_PASS
  | OptPassType.SIMPLE_IPA_PASS => EventCategory.SIMPLE_IPA_PASS
  | OptPassType.IPA_PASS => EventCategory.IPA_PASS

/-! ### Preprocessing stack tracker -/

/-- `start_preprocess_file(file_name, pfile)` from `tracking.cc`.
`file_name` is a nullable `const char*`, hence `Option String`.  The
external collaborators `cpp_get_buffer`/`cpp_get_dir`/`realpath` are
summarized by `resolved`: `some (real_file_name, real_dir_name)` when
`pfile` is non-null and both `realpath` calls succeed, `none` otherwise
(in which case the original only prints a diagnostic). -/
def start_preprocess_file (s : TrackingState) (file_name : Option String)
    (resolved : Option (String × String)) (now : Int) : TrackingState :=
  match file_name with
  | none => s
  | some f0 =>
    if f0 = "<command-line>" then s
    else
      -- Circular include: file_name is somewhere down the stack.
      let circular : Bool :=
        containsA f0 s.preprocess_start && !containsA f0 s.preprocess_end
      let f := if circular then CIRCULAR_POISON_VALUE else f0
      let resolved := if circular then none else resolved
      let s :=
        if containsA f s.preprocess_start then s
        else { s with preprocess_start := mapSet f now s.preprocess_start }
      let s := { s with preprocessing_stack := f :: s.preprocessing_stack }
      match resolved with
      | some (real_file_name, real_dir_name) =>
        register_include_location s real_file_name real_dir_name
      | none => s

/-- `end_preprocess_file()` from `tracking.cc`.  Calling it with an empty
`preprocessing_stack` makes the original invoke `std::stack::top` on an
empty stack - undefined behaviour; embedded as `none`. -/
def end_preprocess_file (s : TrackingState) (now : Int) : Option TrackingState :=
  match s.preprocessing_stack with
  | [] => none
  | top :: rest =>
    let s :=
      if containsA top s.preprocess_end then s
      else { s with preprocess_end := mapSet top now s.preprocess_end }
    some { s with preprocessing_stack := rest, last_function_parsed_ts := now + 3 }

/-- `finish_preprocessing_stage()` from `tracking.cc`: pop until the stack
is empty.  Each loop iteration reads the clock twice (once inside
`end_preprocess_file`, once for the `last_function_parsed_ts` update), so
the clock is supplied as a list of reading pairs; theorems hypothesize the
list is long enough for the loop to drain the stack. -/
def finish_preprocessing_stage (s : TrackingState) :
    List (Int × Int) → TrackingState
  | [] => s
  | (t1, t2) :: rest =>
    if s.preprocessing_stack.isEmpty then s
    else
      match end_preprocess_file s t1 with
      | some s' =>
        finish_preprocessing_stage { s' with last_function_parsed_ts := t2 } rest
      | none => s

/-- The loop body of `write_preprocessing_events` in `tracking.cc`:
one `add_event` per entry of `preprocess_start`, skipping the circular
poison value.  `preprocess_end.at(file)` throws when absent, embedded as
`none` for the whole write. -/
def ppWriteGo (s : TrackingState) : List (String × Int) → Option (List TraceEvent)
  | [] => some []
  | (file, start) :: rest =>
    if file = CIRCULAR_POISON_VALUE then ppWriteGo s rest
    else
      match lookupA file s.preprocess_end with
      | some e =>
        (ppWriteGo s rest).map
          (fun evs =>
            ⟨normalized_file_name s file, EventCategory.PREPROCESS,
             ⟨start, e⟩, (false, [])⟩ :: evs)
      | none => none

/-- `write_preprocessing_events()` from `tracking.cc`: drains the stack
("Should've already happened, but in any case.") and emits one PREPROCESS
event per non-poison entry of `preprocess_start`. -/
def write_preprocessing_events (s : TrackingState) (clock : List (Int × Int)) :
    Option (List TraceEvent) :=
  let s' := finish_preprocessing_stage s clock
  ppWriteGo s' s'.preprocess_start

/-! ### Pass tracker -/

/-- `start_opt_pass(pass)` from `tracking.cc`. -/
def start_opt_pass (s : TrackingState) (pass : OptPass) (now : Int) : TrackingState :=
  let lp : OptPassEvent := { s.last_pass with ts := ⟨s.last_pass.ts.start, now⟩ }
  let pes :=
    match lp.pass with
    | some _ => s.pass_events ++ [lp]
    | none => s.pass_events
  { s with pass_events := pes,
           last_pass := ⟨some pass, ⟨now + 1, now⟩⟩ }

/-- The loop body of `write_opt_pass_events` in `tracking.cc`: one
`add_event` per pending pass event. -/
def passWriteGo : List OptPassEvent → Option (List TraceEvent)
  | [] => some []
  | e :: rest =>
    match e.pass with
    | some p =>
      (passWriteGo rest).map
        (fun evs =>
          TraceEvent.mk p.name (pass_type p.type) e.ts
            (true, [("static_pass_number", toString p.static_pass_number)]) :: evs)
    | none => none

/-- `write_opt_pass_events()` from `tracking.cc`.  `event.pass->name`
dereferences the stored pointer; a null pass in the pending list would be
undefined behaviour, embedded as `none` (the tracker never appends one). -/
def write_opt_pass_events (s : TrackingState) : Option (List TraceEvent) :=
  passWriteGo s.pass_events

/-! ### Scope/function tracker -/

/-- `end_parse_function(info)` from `tracking.cc`, including the
function-local `static bool did_last_function_have_scope` (a field of
`TrackingState` here). -/
def end_parse_function (s : TrackingState) (info : FinishedFunction) (now : Int) :
    TrackingState :=
  -- Because of UI bugs we can't have different events starting and ending
  -- at the same time - so we adjust some of the events by a few nanoseconds.
  let ts : TimeSpan := ⟨s.last_function_parsed_ts + 3, now⟩
  let s1 := { s with last_function_parsed_ts := now,
                     function_events :=
                       s.function_events ++ [FunctionEvent.mk info.name info.file_name ts] }
  match info.scope_name with
  | none => { s1 with did_last_function_have_scope := false }
  | some sn =>
    match s1.scope_events.getLast? with
    | some lastEv =>
      if s1.did_last_function_have_scope && (lastEv.name == sn) then
        { s1 with
          scope_events :=
            s1.scope_events.dropLast ++ [{ lastEv with ts := ⟨lastEv.ts.start, ts.end_ + 1⟩ }],
          did_last_function_have_scope := true }
      else
        { s1 with
          scope_events :=
            s1.scope_events ++ [ScopeEvent.mk sn info.scope_type ⟨ts.start - 1, ts.end_ + 1⟩],
          did_last_function_have_scope := true }
    | none =>
      { s1 with
        scope_events := [⟨sn, info.scope_type, ⟨ts.start - 1, ts.end_ + 1⟩⟩],
        did_last_function_have_scope := true }

/-- `write_all_scopes()` from `tracking.cc`. -/
def write_all_scopes (s : TrackingState) : List TraceEvent :=
  s.scope_events.map fun item => ⟨item.name, item.type, item.ts, (false, [])⟩

/-- `write_all_functions()` from `tracking.cc`. -/
def write_all_functions (s : TrackingState) : List TraceEvent :=
  s.function_events.map fun item =>
    ⟨item.name, EventCategory.FUNCTION, item.ts,
     (true, [("file", normalized_file_name s item.file_name)])⟩

/-- Modelled from the spec: `write_all_events` is declared in `externis.h`
and defined outside `src/`; per spec section 4.5, finalization triggers the
preprocessing drain and then each tracker's emission routine in the fixed
order preprocessing, passes, scopes, functions. -/
def write_all_events (s : TrackingState) (clock : List (Int × Int)) :
    Option (List TraceEvent) :=
  match write_preprocessing_events s clock,
      write_opt_pass_events (finish_preprocessing_stage s clock) with
  | some pp, some passes =>
    some (pp ++ passes ++ write_all_scopes (finish_preprocessing_stage s clock)
      ++ write_all_functions (finish_preprocessing_stage s clock))
  | _, _ => none

/-! ### The external event stream

`externis.cc` drives the tracker through callbacks; an `Op` is one call,
carrying the clock reading(s) `ns_from_start()` returns during it.  Note
that `start_preprocess_file` reads the clock even on its early-return
paths, and each `finish_preprocessing_stage` loop iteration reads it
twice. -/

inductive Op where
  | enterFile (file : Option String) (resolved : Option (String × String)) (now : Int)
  | leaveFile (now : Int)
  | enterPass (pass : OptPass) (now : Int)
  | finishFunction (info : FinishedFunction) (now : Int)
  | finishStage (clock : List (Int × Int))

/-- One tracker call.  `none` marks the undefined-behaviour case
(`leaveFile` on an empty stack). -/
def step (s : TrackingState) : Op → Option TrackingState
  | Op.enterFile f r n => some (start_preprocess_file s f r n)
  | Op.leaveFile n => end_preprocess_file s n
  | Op.enterPass p n => some (start_opt_pass s p n)
  | Op.finishFunction i n => some (end_parse_function s i n)
  | Op.finishStage c => some (finish_preprocessing_stage s c)

/-- Sequential delivery of calls, as in spec section 5. -/
def run (s : TrackingState) : List Op → Option TrackingState
  | [] => some s
  | op :: rest =>
    match step s op with
    | some s' => run s' rest
    | none => none

/-- The clock readings a drain loop consumes, flattened in order. -/
def ppFlat (clock : List (Int × Int)) : List Int :=
  (clock.map (fun p => [p.1, p.2])).flatten

/-- The clock readings one call consumes, in order. -/
def opReadings : Op → List Int
  | Op.enterFile _ _ n => [n]
  | Op.leaveFile n => [n]
  | Op.enterPass _ n => [n]
  | Op.finishFunction _ n => [n]
  | Op.finishStage c => ppFlat c

/-- All clock readings of a call sequence, in order. -/
def readings (ops : List Op) : List Int := (ops.map opReadings).flatten

/-- The non-sentinel file names a call effectively enters: an
`enterFile` with a non-null name other than `"<command-line>"`. -/
def effNamesOp : Op → List String
  | Op.enterFile (some f) _ _ => if f = "<command-line>" then [] else [f]
  | _ => []

/-- All effectively entered file names of a call sequence. -/
def effNames (ops : List Op) : List String := (ops.map effNamesOp).flatten

/-! ### Clock chains -/

/-- `ChainFrom R c l`: each element of `l` relates to its predecessor by
`R`, starting from `c`.  `ChainFrom (fun a b => a ≤ b) c l` is a monotone
clock; `ChainFrom (fun a b => a + k ≤ b) c l` a clock advancing at least
`k` ns per reading. -/
def ChainFrom (R : Int → Int → Prop) : Int → List Int → Prop
  | _, [] => True
  | c, t :: rest => R c t ∧ ChainFrom R t rest

/-- The last element of `l`, or `c` when `l` is empty. -/
def lastOf : Int → List Int → Int
  | c, [] => c
  | _, t :: rest => lastOf t rest

/-- A pure sequence of `finish_function` deliveries: each call carries its
`FinishedFunction` and the clock reading. -/
def runFunctions (s : TrackingState) : List (FinishedFunction × Int) → TrackingState
  | [] => s
  | (i, n) :: rest => runFunctions (end_parse_function s i n) rest

/-- The spans `end_parse_function` records for a sequence of clock readings
starting from cursor `c`: span `i` runs from 3ns after the previous
reading (initially the cursor) to reading `i`. -/
def expectedSpans (c : Int) : List Int → List TimeSpan
  | [] => []
  | n :: rest => ⟨c + 3, n⟩ :: expectedSpans n rest

/-- No name fed to the tracker by this call collides with the reserved
`CIRCULAR_POISON_VALUE` string (neither the entered file name nor the
resolved real path or its normalization). -/
def opPoisonFree : Op → Prop
  | Op.enterFile f r _ =>
      (∀ g, f = some g → g ≠ CIRCULAR_POISON_VALUE) ∧
      (∀ p : String × String, r = some p →
        p.1 ≠ CIRCULAR_POISON_VALUE ∧
        p.1.drop (p.2.length + 1) ≠ CIRCULAR_POISON_VALUE)
  | _ => True

/-- Invariant of the preprocessing tracker after a monotone-clock run whose
readings stayed at most `c`, where `names` are the file names effectively
entered so far: the start map has pairwise-distinct keys that are exactly
the entered names (plus possibly the poison key), recorded starts are at
most `c` and at most the matching recorded end, files with a start but no
end are still on the stack, stacked files have starts, and normalized
display names never collide with the poison string. -/
structure PpInv (c : Int) (names : List String) (s : TrackingState) : Prop where
  nodup : (s.preprocess_start.map Prod.fst).Nodup
  keys_match : ∀ f, f ≠ CIRCULAR_POISON_VALUE →
    (containsA f s.preprocess_start = true ↔ f ∈ names)
  start_le : ∀ f v, lookupA f s.preprocess_start = some v → v ≤ c
  pair_le : ∀ f u v, lookupA f s.preprocess_start = some u →
    lookupA f s.preprocess_end = some v → u ≤ v
  open_on_stack : ∀ f, containsA f s.preprocess_start = true →
    containsA f s.preprocess_end = false → f ∈ s.preprocessing_stack
  stack_started : ∀ f, f ∈ s.preprocessing_stack →
    containsA f s.preprocess_start = true
  end_sub : ∀ f, containsA f s.preprocess_end = true →
    containsA f s.preprocess_start = true

/-- No stored display name collides with the poison string (holds whenever
the names fed to the tracker are poison-free, and makes emitted event names
distinguishable from the sentinel). -/
def NfmClean (s : TrackingState) : Prop :=
  ∀ k v, lookupA k s.normalized_files_map = some v → v ≠ CIRCULAR_POISON_VALUE

/-- The number of entries of the start map that are written out: those
whose key is not the circular poison value. -/
def countNonPoison : List (String × Int) → Nat
  | [] => 0
  | (f, _) :: rest =>
    (if f = CIRCULAR_POISON_VALUE then 0 else 1) + countNonPoison rest

/-- Invariant of the event-producing trackers after a run whose clock
advanced by at least 6ns between consecutive readings, the last one being
at most `c`: every recorded pass/function/scope span satisfies
`start ≤ end_`, and the cursor, the open pass start and the open scope
start are suitably bounded so the next call keeps it that way. -/
structure EvInv (c : Int) (s : TrackingState) : Prop where
  cursor_le : s.last_function_parsed_ts ≤ c + 3
  pass_start_le : s.last_pass.ts.start ≤ c + 1
  pass_ok : ∀ e ∈ s.pass_events, e.ts.start ≤ e.ts.end_
  fn_ok : ∀ e ∈ s.function_events, e.ts.start ≤ e.ts.end_
  scope_ok : ∀ e ∈ s.scope_events, e.ts.start ≤ e.ts.end_
  scope_last_le : ∀ e, s.scope_events.getLast? = some e → e.ts.start ≤ c + 1

/-- Well-nestedness of a pure `enter_file`/`leave_file` call sequence,
tracking the stack depth: every `leaveFile` finds a non-empty stack, and
the result is the final depth.  `none` on underflow or on any call other
than `enterFile`/`leaveFile`. -/
def fileOpsDepth : Nat → List Op → Option Nat
  | k, [] => some k
  | k, Op.enterFile f r n :: rest =>
    fileOpsDepth (k + (effNamesOp (Op.enterFile f r n)).length) rest
  | k, Op.leaveFile _ :: rest =>
    if k = 0 then none else fileOpsDepth (k - 1) rest
  | _, _ => none

/-- The fields of `TrackingState` owned by the path normalizer. -/
def normParts (s : TrackingState) :
    List (String × String) × List (String × String) × List String × List String :=
  (s.file_to_include_directory, s.normalized_files_map, s.normalized_files,
   s.conflicted_files)

/-- The fields of `TrackingState` owned by the preprocessing stack tracker. -/
def ppParts (s : TrackingState) :
    List (String × Int) × List (String × Int) × List String :=
  (s.preprocess_start, s.preprocess_end, s.preprocessing_stack)

/-- The fields of `TrackingState` owned by the pass and scope/function
trackers (including the shared cursor). -/
def evParts (s : TrackingState) :
    Int × OptPassEvent × List OptPassEvent × List ScopeEvent × List FunctionEvent :=
  (s.last_function_parsed_ts, s.last_pass, s.pass_events, s.scope_events,
   s.function_events)

theorem chainFrom_append {R : Int → Int → Prop} (c : Int) (l1 l2 : List Int) :
    ChainFrom R c (l1 ++ l2) ↔ ChainFrom R c l1 ∧ ChainFrom R (lastOf c l1) l2 := by
  induction l1 generalizing c with
  | nil => simp [ChainFrom, lastOf]
  | cons t rest ih =>
    simp only [List.cons_append]
    show R c t ∧ ChainFrom R t (rest ++ l2) ↔ (R c t ∧ ChainFrom R t rest) ∧ _
    rw [ih t]
    show _ ↔ _ ∧ ChainFrom R (lastOf t rest) l2
    simp [and_assoc]

theorem chainFrom_imp {R S : Int → Int → Prop} (h : ∀ a b, R a b → S a b) :
    ∀ (c : Int) (l : List Int), ChainFrom R c l → ChainFrom S c l
  | _, [], _ => trivial
  | c, t :: rest, ⟨h1, h2⟩ => ⟨h c t h1, chainFrom_imp h t rest h2⟩

theorem le_lastOf : ∀ (c : Int) (l : List Int),
    ChainFrom (fun a b => a ≤ b) c l → c ≤ lastOf c l
  | _, [], _ => le_refl _
  | c, t :: rest, ⟨h1, h2⟩ => le_trans h1 (le_lastOf t rest h2)

/-! ### Association-list lemmas -/

theorem lookupA_append_left {α : Type} (k : String) (v : α) :
    ∀ (m l : List (String × α)), lookupA k m = some v → lookupA k (m ++ l) = some v
  | [], _, h => by simp [lookupA] at h
  | (k', v') :: rest, l, h => by
    by_cases hk : k' = k
    · simpa [lookupA, hk] using h
    · simp only [lookupA, hk, if_false, List.cons_append] at h ⊢
      exact lookupA_append_left k v rest l h

theorem lookupA_append_right {α : Type} (k : String) :
    ∀ (m l : List (String × α)), lookupA k m = none → lookupA k (m ++ l) = lookupA k l
  | [], _, _ => rfl
  | (k', v') :: rest, l, h => by
    by_cases hk : k' = k
    · simp [lookupA, hk] at h
    · simp only [lookupA, hk, if_false, List.cons_append] at h ⊢
      exact lookupA_append_right k rest l h

theorem lookupA_mapSet_self {α : Type} (k : String) (v : α) :
    ∀ (m : List (String × α)), lookupA k (mapSet k v m) = some v
  | [] => by simp [lookupA, mapSet]
  | (k', v') :: rest => by
    by_cases hk : k' = k
    · simp [lookupA, mapSet, hk]
    · simp [lookupA, mapSet, hk, lookupA_mapSet_self k v rest]

theorem lookupA_mapSet_ne {α : Type} (k g : String) (v : α) (hne : k ≠ g) :
    ∀ (m : List (String × α)), lookupA g (mapSet k v m) = lookupA g m
  | [] => by simp [lookupA, mapSet, hne]
  | (k', v') :: rest => by
    by_cases hk : k' = k
    · subst hk
      simp [lookupA, mapSet, hne]
    · simp [lookupA, mapSet, hk, lookupA_mapSet_ne k g v hne rest]

theorem mapSet_of_not_contains {α : Type} (k : String) (v : α) :
    ∀ (m : List (String × α)), containsA k m = false → mapSet k v m = m ++ [(k, v)]
  | [], _ => rfl
  | (k', v') :: rest, h => by
    by_cases hk : k' = k
    · simp [containsA, lookupA, hk] at h
    · simp only [containsA, lookupA, hk, if_false] at h
      simp [mapSet, hk, mapSet_of_not_contains k v rest h]

theorem lookupA_some_mem {α : Type} (k : String) (v : α) :
    ∀ (m : List (String × α)), lookupA k m = some v → (k, v) ∈ m
  | [], h => by simp [lookupA] at h
  | (k', v') :: rest, h => by
    by_cases hk : k' = k
    · subst hk
      rw [lookupA, if_pos rfl] at h
      injection h with h'
      subst h'
      exact List.mem_cons_self _ _
    · rw [lookupA, if_neg hk] at h
      exact List.mem_cons_of_mem _ (lookupA_some_mem k v rest h)

theorem mem_lookupA_nodup {α : Type} (k : String) (v : α) :
    ∀ (m : List (String × α)), (m.map Prod.fst).Nodup → (k, v) ∈ m →
      lookupA k m = some v
  | [], _, hm => by simp at hm
  | (k', v') :: rest, hnd, hm => by
    simp only [List.map_cons, List.nodup_cons] at hnd
    rcases List.mem_cons.mp hm with h | h
    · cases h
      simp [lookupA]
    · have hk : k' ≠ k := by
        rintro rfl
        exact hnd.1 (List.mem_map.mpr ⟨(k', v), h, rfl⟩)
      simp only [lookupA, hk, if_false]
      exact mem_lookupA_nodup k v rest hnd.2 h

theorem containsA_iff_mem_keys {α : Type} (k : String) :
    ∀ (m : List (String × α)), containsA k m = true ↔ k ∈ m.map Prod.fst
  | [] => by simp [containsA, lookupA]
  | (k', v') :: rest => by
    by_cases hk : k' = k
    · subst hk
      simp [containsA, lookupA]
    · rw [containsA, lookupA, if_neg hk]
      show containsA k rest = true ↔ _
      rw [containsA_iff_mem_keys k rest]
      simp [Ne.symm hk]

/-! ### Frame lemmas: which fields each call leaves untouched -/

theorem register_frame (s : TrackingState) (fn dn : String) :
    ppParts (register_include_location s fn dn) = ppParts s ∧
    evParts (register_include_location s fn dn) = evParts s ∧
    (register_include_location s fn dn).did_last_function_have_scope =
      s.did_last_function_have_scope := by
  unfold register_include_location
  dsimp only
  split_ifs <;> exact ⟨rfl, rfl, rfl⟩

theorem start_preprocess_file_frame (s : TrackingState) (f : Option String)
    (r : Option (String × String)) (now : Int) :
    evParts (start_preprocess_file s f r now) = evParts s ∧
    (start_preprocess_file s f r now).did_last_function_have_scope =
      s.did_last_function_have_scope := by
  cases f with
  | none => exact ⟨rfl, rfl⟩
  | some f0 =>
    unfold start_preprocess_file
    dsimp only
    split_ifs <;>
      first
        | exact ⟨rfl, rfl⟩
        | · rcases r with _ | ⟨rf, rd⟩
            · exact ⟨rfl, rfl⟩
            · dsimp only
              rcases register_frame _ rf rd with ⟨-, h2, h3⟩
              exact ⟨h2, h3⟩

theorem end_preprocess_file_frame (s : TrackingState) (now : Int)
    (s' : TrackingState) (h : end_preprocess_file s now = some s') :
    normParts s' = normParts s ∧
    s'.preprocess_start = s.preprocess_start ∧
    s'.last_pass = s.last_pass ∧
    s'.pass_events = s.pass_events ∧
    s'.scope_events = s.scope_events ∧
    s'.function_events = s.function_events ∧
    s'.did_last_function_have_scope = s.did_last_function_have_scope := by
  cases hstk : s.preprocessing_stack with
  | nil => simp [end_preprocess_file, hstk] at h
  | cons top rest =>
    simp only [end_preprocess_file, hstk] at h
    split_ifs at h <;> (cases h; exact ⟨rfl, rfl, rfl, rfl, rfl, rfl, rfl⟩)

theorem finish_preprocessing_stage_frame (s : TrackingState) :
    ∀ clock : List (Int × Int),
      normParts (finish_preprocessing_stage s clock) = normParts s ∧
      (finish_preprocessing_stage s clock).preprocess_start = s.preprocess_start ∧
      (finish_preprocessing_stage s clock).last_pass = s.last_pass ∧
      (finish_preprocessing_stage s clock).pass_events = s.pass_events ∧
      (finish_preprocessing_stage s clock).scope_events = s.scope_events ∧
      (finish_preprocessing_stage s clock).function_events = s.function_events ∧
      (finish_preprocessing_stage s clock).did_last_function_have_scope =
        s.did_last_function_have_scope
  | [] => ⟨rfl, rfl, rfl, rfl, rfl, rfl, rfl⟩
  | (t1, t2) :: rest => by
    by_cases he : s.preprocessing_stack.isEmpty
    · simp [finish_preprocessing_stage, he]
    · simp only [finish_preprocessing_stage, he, if_false]
      cases hstep : end_preprocess_file s t1 with
      | none => exact ⟨rfl, rfl, rfl, rfl, rfl, rfl, rfl⟩
      | some s1 =>
        rcases end_preprocess_file_frame s t1 s1 hstep with
          ⟨h1, h2, h3, h4, h5, h6, h7⟩
        rcases finish_preprocessing_stage_frame
            { s1 with last_function_parsed_ts := t2 } rest with
          ⟨g1, g2, g3, g4, g5, g6, g7⟩
        refine ⟨?_, ?_, ?_, ?_, ?_, ?_, ?_⟩ <;>
          simp_all [normParts]

theorem start_opt_pass_frame (s : TrackingState) (p : OptPass) (now : Int) :
    ppParts (start_opt_pass s p now) = ppParts s ∧
    normParts (start_opt_pass s p now) = normParts s ∧
    (start_opt_pass s p now).last_function_parsed_ts = s.last_function_parsed_ts ∧
    (start_opt_pass s p now).scope_events = s.scope_events ∧
    (start_opt_pass s p now).function_events = s.function_events ∧
    (start_opt_pass s p now).did_last_function_have_scope =
      s.did_last_function_have_scope := by
  unfold start_opt_pass
  cases s.last_pass.pass <;> exact ⟨rfl, rfl, rfl, rfl, rfl, rfl⟩

theorem end_parse_function_frame (s : TrackingState) (info : FinishedFunction)
    (now : Int) :
    ppParts (end_parse_function s info now) = ppParts s ∧
    normParts (end_parse_function s info now) = normParts s ∧
    (end_parse_function s info now).last_pass = s.last_pass ∧
    (end_parse_function s info now).pass_events = s.pass_events := by
  unfold end_parse_function
  cases info.scope_name with
  | none => exact ⟨rfl, rfl, rfl, rfl⟩
  | some sn =>
    dsimp only
    cases (s.scope_events.getLast? : Option ScopeEvent) with
    | none => exact ⟨rfl, rfl, rfl, rfl⟩
    | some lastEv =>
      dsimp only
      split_ifs <;> exact ⟨rfl, rfl, rfl, rfl⟩

theorem ppParts_eq_iff {s' s : TrackingState} (h : ppParts s' = ppParts s) :
    s'.preprocess_start = s.preprocess_start ∧
    s'.preprocess_end = s.preprocess_end ∧
    s'.preprocessing_stack = s.preprocessing_stack := by
  simpa [ppParts, Prod.ext_iff] using h

theorem normParts_eq_iff {s' s : TrackingState} (h : normParts s' = normParts s) :
    s'.file_to_include_directory = s.file_to_include_directory ∧
    s'.normalized_files_map = s.normalized_files_map ∧
    s'.normalized_files = s.normalized_files ∧
    s'.conflicted_files = s.conflicted_files := by
  simpa [normParts, Prod.ext_iff] using h

theorem evParts_eq_iff {s' s : TrackingState} (h : evParts s' = evParts s) :
    s'.last_function_parsed_ts = s.last_function_parsed_ts ∧
    s'.last_pass = s.last_pass ∧
    s'.pass_events = s.pass_events ∧
    s'.scope_events = s.scope_events ∧
    s'.function_events = s.function_events := by
  simpa [evParts, Prod.ext_iff] using h

theorem mem_setInsert_of_mem {x y : String} {l : List String} (h : x ∈ l) :
    x ∈ setInsert y l := by
  unfold setInsert
  split_ifs <;> simp [h]

theorem mem_setInsert_self (y : String) (l : List String) : y ∈ setInsert y l := by
  unfold setInsert
  split_ifs with h
  · exact h
  · simp

/-- Case-analysis normal form of a real (non-null, non-`"<command-line>"`)
`start_preprocess_file` call: the pushed key is the poison value exactly in
the circular case (in which directory resolution is also skipped), the
start timestamp is recorded only if the key is new, and the key is pushed;
then the include location is registered if resolution is available. -/
theorem start_preprocess_file_shape (s : TrackingState) (f0 : String)
    (r : Option (String × String)) (now : Int) (hcmd : ¬ f0 = "<command-line>") :
    ∃ (fkey : String) (r' : Option (String × String)),
      (let s1 :=
        if containsA fkey s.preprocess_start = true then s
        else { s with preprocess_start := mapSet fkey now s.preprocess_start }
       let s2 := { s1 with preprocessing_stack := fkey :: s1.preprocessing_stack }
       start_preprocess_file s (some f0) r now =
         (match r' with
          | some (rf, rd) => register_include_location s2 rf rd
          | none => s2)) ∧
      (if (containsA f0 s.preprocess_start && !containsA f0 s.preprocess_end) = true
       then fkey = CIRCULAR_POISON_VALUE ∧ r' = none
       else fkey = f0 ∧ r' = r) := by
  unfold start_preprocess_file
  dsimp only
  rw [if_neg hcmd]
  by_cases hcirc :
      (containsA f0 s.preprocess_start && !containsA f0 s.preprocess_end) = true
  · refine ⟨CIRCULAR_POISON_VALUE, none, ?_, ?_⟩ <;> simp [hcirc]
  · have hX : (containsA f0 s.preprocess_start && !containsA f0 s.preprocess_end) = false := by
      cases hb : (containsA f0 s.preprocess_start && !containsA f0 s.preprocess_end) with
      | true => exact absurd hb hcirc
      | false => rfl
    refine ⟨f0, r, ?_, ?_⟩ <;> simp [hX]

/-! ### Preservation of recorded information across calls -/

/-- Recorded preprocessing timestamps are never overwritten. -/
def PpPreserve (s s' : TrackingState) : Prop :=
  (∀ g v, lookupA g s.preprocess_start = some v →
    lookupA g s'.preprocess_start = some v) ∧
  (∀ g v, lookupA g s.preprocess_end = some v →
    lookupA g s'.preprocess_end = some v)

theorem ppPreserve_refl (s : TrackingState) : PpPreserve s s :=
  ⟨fun _ _ h => h, fun _ _ h => h⟩

theorem ppPreserve_trans {s1 s2 s3 : TrackingState} (h1 : PpPreserve s1 s2)
    (h2 : PpPreserve s2 s3) : PpPreserve s1 s3 :=
  ⟨fun g v h => h2.1 g v (h1.1 g v h), fun g v h => h2.2 g v (h1.2 g v h)⟩

theorem ppPreserve_of_ppParts {s s' : TrackingState} (h : ppParts s' = ppParts s) :
    PpPreserve s s' := by
  rcases ppParts_eq_iff h with ⟨h1, h2, -⟩
  exact ⟨fun g v hv => by rw [h1]; exact hv, fun g v hv => by rw [h2]; exact hv⟩

theorem ppPreserve_start_preprocess_file (s : TrackingState) (f : Option String)
    (r : Option (String × String)) (now : Int) :
    PpPreserve s (start_preprocess_file s f r now) := by
  cases f with
  | none => exact ppPreserve_refl s
  | some f0 =>
    by_cases hcmd : f0 = "<command-line>"
    · subst hcmd
      have h : start_preprocess_file s (some "<command-line>") r now = s := by
        simp [start_preprocess_file]
      rw [h]
      exact ppPreserve_refl s
    · rcases start_preprocess_file_shape s f0 r now hcmd with ⟨fkey, r', heq, -⟩
      dsimp only at heq
      rw [heq]
      have base :
          PpPreserve s
            { (if containsA fkey s.preprocess_start = true then s
               else { s with preprocess_start := mapSet fkey now s.preprocess_start }) with
              preprocessing_stack :=
                fkey :: (if containsA fkey s.preprocess_start = true then s
                         else { s with
                           preprocess_start :=
                             mapSet fkey now s.preprocess_start }).preprocessing_stack } := by
        by_cases hc : containsA fkey s.preprocess_start = true
        · rw [if_pos hc]
          exact ⟨fun g v h => h, fun g v h => h⟩
        · rw [if_neg hc]
          refine ⟨fun g v h => ?_, fun g v h => h⟩
          have hg : fkey ≠ g := by
            rintro rfl
            simp [containsA, h] at hc
          simpa [lookupA_mapSet_ne fkey g now hg] using h
      match r' with
      | none => exact base
      | some (rf, rd) =>
        exact ppPreserve_trans base
          (ppPreserve_of_ppParts (register_frame _ rf rd).1)

theorem ppPreserve_end_preprocess_file {s s' : TrackingState} {now : Int}
    (h : end_preprocess_file s now = some s') : PpPreserve s s' := by
  cases hstk : s.preprocessing_stack with
  | nil => simp [end_preprocess_file, hstk] at h
  | cons top rest =>
    simp only [end_preprocess_file, hstk] at h
    split_ifs at h with hc <;> cases h
    · exact ⟨fun g v hv => hv, fun g v hv => hv⟩
    · refine ⟨fun g v hv => hv, fun g v hv => ?_⟩
      have hg : top ≠ g := by
        rintro rfl
        simp [containsA, hv] at hc
      simpa [lookupA_mapSet_ne top g now hg] using hv

theorem ppPreserve_finish_preprocessing_stage (s : TrackingState) :
    ∀ clock : List (Int × Int), PpPreserve s (finish_preprocessing_stage s clock)
  | [] => ppPreserve_refl s
  | (t1, t2) :: rest => by
    by_cases he : s.preprocessing_stack.isEmpty
    · simp only [finish_preprocessing_stage, he, if_true]
      exact ppPreserve_refl s
    · simp only [finish_preprocessing_stage, he, if_false]
      cases hstep : end_preprocess_file s t1 with
      | none => exact ppPreserve_refl s
      | some s1 =>
        have h1 : PpPreserve s s1 := ppPreserve_end_preprocess_file hstep
        have h2 := ppPreserve_finish_preprocessing_stage
          { s1 with last_function_parsed_ts := t2 } rest
        exact ppPreserve_trans h1 h2

theorem ppPreserve_step {s s' : TrackingState} {op : Op}
    (h : step s op = some s') : PpPreserve s s' := by
  cases op with
  | enterFile f r n =>
    cases h
    exact ppPreserve_start_preprocess_file s f r n
  | leaveFile n => exact ppPreserve_end_preprocess_file h
  | enterPass p n =>
    cases h
    exact ppPreserve_of_ppParts (start_opt_pass_frame s p n).1
  | finishFunction i n =>
    cases h
    exact ppPreserve_of_ppParts (end_parse_function_frame s i n).1
  | finishStage c =>
    cases h
    exact ppPreserve_finish_preprocessing_stage s c

theorem ppPreserve_run : ∀ (ops : List Op) (s s' : TrackingState),
    run s ops = some s' → PpPreserve s s'
  | [], s, s', h => by
    cases h
    exact ppPreserve_refl s
  | op :: rest, s, s', h => by
    simp only [run] at h
    cases hstep : step s op with
    | none => rw [hstep] at h; cases h
    | some s1 =>
      rw [hstep] at h
      exact ppPreserve_trans (ppPreserve_step hstep) (ppPreserve_run rest s1 s' h)

/-- What later calls can never undo in the path normalizer: registered
include directories stay, registered display names of registered files
stay, and conflict markings stay. -/
def NormPreserve (s s' : TrackingState) : Prop :=
  (∀ g rt, lookupA g s.file_to_include_directory = some rt →
    lookupA g s'.file_to_include_directory = some rt) ∧
  (∀ g d, containsA g s.file_to_include_directory = true →
    lookupA g s.normalized_files_map = some d →
    lookupA g s'.normalized_files_map = some d) ∧
  (∀ x ∈ s.conflicted_files, x ∈ s'.conflicted_files)

theorem normPreserve_refl (s : TrackingState) : NormPreserve s s :=
  ⟨fun _ _ h => h, fun _ _ _ h => h, fun _ h => h⟩

theorem normPreserve_trans {s1 s2 s3 : TrackingState} (h1 : NormPreserve s1 s2)
    (h2 : NormPreserve s2 s3) : NormPreserve s1 s3 := by
  refine ⟨fun g rt h => h2.1 g rt (h1.1 g rt h), fun g d hc h => ?_,
    fun x h => h2.2.2 x (h1.2.2 x h)⟩
  have hrt : ∃ rt, lookupA g s1.file_to_include_directory = some rt := by
    cases hl : lookupA g s1.file_to_include_directory with
    | none => simp [containsA, hl] at hc
    | some rt => exact ⟨rt, rfl⟩
  rcases hrt with ⟨rt, hrt⟩
  have hc2 : containsA g s2.file_to_include_directory = true := by
    simp [containsA, h1.1 g rt hrt]
  exact h2.2.1 g d hc2 (h1.2.1 g d hc h)

theorem normPreserve_of_normParts {s s' : TrackingState}
    (h : normParts s' = normParts s) : NormPreserve s s' := by
  rcases normParts_eq_iff h with ⟨h1, h2, h3, h4⟩
  exact ⟨fun g rt hl => by rw [h1]; exact hl,
    fun g d _ hl => by rw [h2]; exact hl,
    fun x hx => by rw [h4]; exact hx⟩

theorem normPreserve_register (s : TrackingState) (fn dn : String) :
    NormPreserve s (register_include_location s fn dn) := by
  by_cases hc : containsA fn s.file_to_include_directory = true
  · have : register_include_location s fn dn = s := by
      unfold register_include_location
      rw [if_pos hc]
    rw [this]
    exact normPreserve_refl s
  · have hfn : lookupA fn s.file_to_include_directory = none := by
      cases hl : lookupA fn s.file_to_include_directory with
      | none => rfl
      | some rt => simp [containsA, hl] at hc
    unfold register_include_location
    rw [if_neg hc]
    dsimp only
    refine ⟨fun g rt hl => ?_, fun g d hcg hl => ?_, fun x hx => ?_⟩
    · have hne : fn ≠ g := by
        rintro rfl
        rw [hfn] at hl
        cases hl
      split_ifs <;> simpa [lookupA_mapSet_ne fn g dn hne] using hl
    · have hne : fn ≠ g := by
        rintro rfl
        rw [containsA, hfn] at hcg
        cases hcg
      split_ifs <;>
        simpa [lookupA_mapSet_ne fn g (fn.drop (dn.length + 1)) hne] using hl
    · split_ifs <;> first | exact hx | exact mem_setInsert_of_mem hx

theorem normPreserve_start_preprocess_file (s : TrackingState) (f : Option String)
    (r : Option (String × String)) (now : Int) :
    NormPreserve s (start_preprocess_file s f r now) := by
  cases f with
  | none => exact normPreserve_refl s
  | some f0 =>
    by_cases hcmd : f0 = "<command-line>"
    · subst hcmd
      have h : start_preprocess_file s (some "<command-line>") r now = s := by
        simp [start_preprocess_file]
      rw [h]
      exact normPreserve_refl s
    · rcases start_preprocess_file_shape s f0 r now hcmd with ⟨fkey, r', heq, -⟩
      dsimp only at heq
      rw [heq]
      set s1 := if containsA fkey s.preprocess_start = true then s
        else { s with preprocess_start := mapSet fkey now s.preprocess_start } with hs1
      have hbase : NormPreserve s
          { s1 with preprocessing_stack := fkey :: s1.preprocessing_stack } := by
        apply normPreserve_of_normParts
        rw [hs1]
        split_ifs <;> rfl
      match r' with
      | none => exact hbase
      | some (rf, rd) => exact normPreserve_trans hbase (normPreserve_register _ rf rd)

theorem normPreserve_step {s s' : TrackingState} {op : Op}
    (h : step s op = some s') : NormPreserve s s' := by
  cases op with
  | enterFile f r n =>
    cases h
    exact normPreserve_start_preprocess_file s f r n
  | leaveFile n => exact normPreserve_of_normParts (end_preprocess_file_frame s n s' h).1
  | enterPass p n =>
    cases h
    exact normPreserve_of_normParts (start_opt_pass_frame s p n).2.1
  | finishFunction i n =>
    cases h
    exact normPreserve_of_normParts (end_parse_function_frame s i n).2.1
  | finishStage c =>
    cases h
    exact normPreserve_of_normParts (finish_preprocessing_stage_frame s c).1

theorem normPreserve_run : ∀ (ops : List Op) (s s' : TrackingState),
    run s ops = some s' → NormPreserve s s'
  | [], s, s', h => by
    cases h
    exact normPreserve_refl s
  | op :: rest, s, s', h => by
    simp only [run] at h
    cases hstep : step s op with
    | none => rw [hstep] at h; cases h
    | some s1 =>
      rw [hstep] at h
      exact normPreserve_trans (normPreserve_step hstep)
        (normPreserve_run rest s1 s' h)

/-- Effect of registering a genuinely new file whose path check passes. -/
theorem register_new_file (s : TrackingState) (fn dn : String)
    (hnew : containsA fn s.file_to_include_directory = false)
    (hpre : starts_with fn dn = true) :
    lookupA fn (register_include_location s fn dn).file_to_include_directory =
      some dn ∧
    lookupA fn (register_include_location s fn dn).normalized_files_map =
      some (fn.drop (dn.length + 1)) ∧
    fn.drop (dn.length + 1) ∈ (register_include_location s fn dn).normalized_files ∧
    (fn.drop (dn.length + 1) ∈ s.normalized_files →
      fn.drop (dn.length + 1) ∈ (register_include_location s fn dn).conflicted_files) ∧
    (∀ g, g ≠ fn →
      lookupA g (register_include_location s fn dn).file_to_include_directory =
        lookupA g s.file_to_include_directory) ∧
    (∀ g, g ≠ fn →
      lookupA g (register_include_location s fn dn).normalized_files_map =
        lookupA g s.normalized_files_map) := by
  have hc : ¬ containsA fn s.file_to_include_directory = true := by
    rw [hnew]; simp
  unfold register_include_location
  rw [if_neg hc]
  dsimp only
  rw [if_pos hpre]
  by_cases hmem : fn.drop (dn.length + 1) ∈ s.normalized_files
  · rw [if_pos hmem]
    refine ⟨lookupA_mapSet_self fn dn _, lookupA_mapSet_self fn _ _, hmem,
      fun _ => mem_setInsert_self _ _, fun g hg => ?_, fun g hg => ?_⟩
    · exact lookupA_mapSet_ne fn g dn (Ne.symm hg) _
    · exact lookupA_mapSet_ne fn g (fn.drop (dn.length + 1)) (Ne.symm hg) _
  · rw [if_neg hmem]
    refine ⟨lookupA_mapSet_self fn dn _, lookupA_mapSet_self fn _ _,
      mem_setInsert_self _ _, fun h => absurd h hmem, fun g hg => ?_, fun g hg => ?_⟩
    · exact lookupA_mapSet_ne fn g dn (Ne.symm hg) _
    · exact lookupA_mapSet_ne fn g (fn.drop (dn.length + 1)) (Ne.symm hg) _

/-- Membership in the preprocessing write loop's output. -/
theorem ppWriteGo_mem (s : TrackingState) (f : String) (a b : Int)
    (hf : f ≠ CIRCULAR_POISON_VALUE)
    (hend : lookupA f s.preprocess_end = some b) :
    ∀ (entries : List (String × Int)) (evs : List TraceEvent),
      ppWriteGo s entries = some evs → (f, a) ∈ entries →
      TraceEvent.mk (normalized_file_name s f) EventCategory.PREPROCESS ⟨a, b⟩
        (false, []) ∈ evs
  | [], _, _, hmem => by simp at hmem
  | (g, st) :: rest, evs, hw, hmem => by
    by_cases hg : g = CIRCULAR_POISON_VALUE
    · rw [ppWriteGo, if_pos hg] at hw
      rcases List.mem_cons.mp hmem with hh | hh
      · cases hh
        exact absurd hg hf
      · exact ppWriteGo_mem s f a b hf hend rest evs hw hh
    · rw [ppWriteGo, if_neg hg] at hw
      cases hlook : lookupA g s.preprocess_end with
      | none => rw [hlook] at hw; cases hw
      | some e =>
        rw [hlook] at hw
        cases hrest : ppWriteGo s rest with
        | none => rw [hrest] at hw; cases hw
        | some evs' =>
          rw [hrest] at hw
          simp only [Option.map_some] at hw  -- evs = ev :: evs'
          cases hw
          rcases List.mem_cons.mp hmem with hh | hh
          · cases hh
            rw [hlook] at hend
            cases hend
            exact List.mem_cons_self _ _
          · exact List.mem_cons_of_mem _
              (ppWriteGo_mem s f a b hf hend rest evs' hrest hh)

/-! ### Claims -/

/-- C8: a file that was entered and fully left keeps its first recorded
start and end: a later re-entry pushes the file itself (not the poison
value) without touching either recorded timestamp, no subsequent call
sequence ever changes them, and the PREPROCESS event emitted for that file
carries exactly the first inclusion interval. -/
theorem C8_reentry_keeps_first_interval (s : TrackingState) (f : String)
    (a b : Int) (r : Option (String × String)) (now : Int) (ops : List Op)
    (s3 : TrackingState)
    (hf : f ≠ "<command-line>") (hp : f ≠ CIRCULAR_POISON_VALUE)
    (hs : lookupA f s.preprocess_start = some a)
    (he : lookupA f s.preprocess_end = some b)
    (hrun : run (start_preprocess_file s (some f) r now) ops = some s3) :
    (start_preprocess_file s (some f) r now).preprocessing_stack =
      f :: s.preprocessing_stack ∧
    lookupA f s3.preprocess_start = some a ∧
    lookupA f s3.preprocess_end = some b ∧
    ∀ (clock : List (Int × Int)) (evs : List TraceEvent),
      write_preprocessing_events s3 clock = some evs →
      TraceEvent.mk (normalized_file_name (finish_preprocessing_stage s3 clock) f)
        EventCategory.PREPROCESS ⟨a, b⟩ (false, []) ∈ evs := by
  have hcontains : containsA f s.preprocess_start = true := by
    simp [containsA, hs]
  have hcontainsEnd : containsA f s.preprocess_end = true := by
    simp [containsA, he]
  have hcirc :
      (containsA f s.preprocess_start && !containsA f s.preprocess_end) = false := by
    rw [hcontainsEnd]
    simp
  rcases start_preprocess_file_shape s f r now hf with ⟨fkey, r', heq, hcase⟩
  rw [hcirc] at hcase
  simp only [Bool.false_eq_true, if_false] at hcase
  rcases hcase with ⟨hfk, hr'⟩
  dsimp only at heq
  rw [hfk, hr'] at heq
  rw [if_pos hcontains] at heq
  have hstack :
      (start_preprocess_file s (some f) r now).preprocessing_stack =
        f :: s.preprocessing_stack := by
    rw [heq]
    match r with
    | none => rfl
    | some (rf, rd) =>
      exact (ppParts_eq_iff (register_frame _ rf rd).1).2.2
  have hpres : PpPreserve s s3 :=
    ppPreserve_trans (ppPreserve_start_preprocess_file s (some f) r now)
      (ppPreserve_run ops _ s3 hrun)
  have hs3 : lookupA f s3.preprocess_start = some a := hpres.1 f a hs
  have he3 : lookupA f s3.preprocess_end = some b := hpres.2 f b he
  refine ⟨hstack, hs3, he3, fun clock evs hw => ?_⟩
  have hdrain : PpPreserve s3 (finish_preprocessing_stage s3 clock) :=
    ppPreserve_finish_preprocessing_stage s3 clock
  have hs4 := hdrain.1 f a hs3
  have he4 := hdrain.2 f b he3
  unfold write_preprocessing_events at hw
  exact ppWriteGo_mem _ f a b hp he4 _ evs hw (lookupA_some_mem f a _ hs4)

/-- Witness for C8 at a concrete input: the state after entering and
leaving `"a"` once (interval `[1, 2]`), re-entered at time `5`. -/
theorem C8_reentry_keeps_first_interval_witness :
    (start_preprocess_file
        { initialState with
          preprocess_start := [("a", 1)], preprocess_end := [("a", 2)] }
        (some "a") none 5).preprocessing_stack = ["a"] ∧
    lookupA "a" (start_preprocess_file
        { initialState with
          preprocess_start := [("a", 1)], preprocess_end := [("a", 2)] }
        (some "a") none 5).preprocess_start = some 1 ∧
    lookupA "a" (start_preprocess_file
        { initialState with
          preprocess_start := [("a", 1)], preprocess_end := [("a", 2)] }
        (some "a") none 5).preprocess_end = some 2 ∧
    TraceEvent.mk "a" EventCategory.PREPROCESS ⟨1, 2⟩ (false, []) ∈
      [TraceEvent.mk "a" EventCategory.PREPROCESS ⟨1, 2⟩ (false, [])] := by
  have h := C8_reentry_keeps_first_interval
    { initialState with preprocess_start := [("a", 1)], preprocess_end := [("a", 2)] }
    "a" 1 2 none 5 [] _ (by decide) (by decide) (by decide) (by decide) rfl
  refine ⟨h.1, h.2.1, h.2.2.1, ?_⟩
  have hw := h.2.2.2 []
    [TraceEvent.mk "a" EventCategory.PREPROCESS ⟨1, 2⟩ (false, [])] (by decide)
  simpa using hw

/-- C1: two registrations with distinct absolute paths but the same
computed display name mark that display name conflicted: afterwards
`normalized_file_name` returns the absolute path for both files (the
first-registered one included), and no later call sequence ever removes
the conflict marking or the fallback. -/
theorem C1_display_name_conflict_is_permanent (s : TrackingState)
    (f1 r1 f2 r2 : String) (ops : List Op) (s3 : TrackingState)
    (h1 : lookupA f1 s.file_to_include_directory = none)
    (h2 : lookupA f2 s.file_to_include_directory = none)
    (hne : f1 ≠ f2)
    (hp1 : starts_with f1 r1 = true) (hp2 : starts_with f2 r2 = true)
    (hd : f1.drop (r1.length + 1) = f2.drop (r2.length + 1))
    (hrun : run (register_include_location
        (register_include_location s f1 r1) f2 r2) ops = some s3) :
    normalized_file_name s3 f1 = f1 ∧ normalized_file_name s3 f2 = f2 ∧
    f1.drop (r1.length + 1) ∈ s3.conflicted_files := by
  have hnew1 : containsA f1 s.file_to_include_directory = false := by
    simp [containsA, h1]
  rcases register_new_file s f1 r1 hnew1 hp1 with ⟨hr1a, hr1b, hr1c, -, hr1e, hr1f⟩
  have h2' : lookupA f2
      (register_include_location s f1 r1).file_to_include_directory = none := by
    rw [hr1e f2 (Ne.symm hne)]
    exact h2
  have hnew2 : containsA f2
      (register_include_location s f1 r1).file_to_include_directory = false := by
    simp [containsA, h2']
  rcases register_new_file (register_include_location s f1 r1) f2 r2 hnew2 hp2
    with ⟨hr2a, hr2b, -, hr2d, hr2e, hr2f⟩
  -- after the first registration the shared display name is present, so
  -- the second registration marks it conflicted
  have hconf2 : f1.drop (r1.length + 1) ∈
      (register_include_location (register_include_location s f1 r1)
        f2 r2).conflicted_files := by
    rw [hd]
    refine hr2d ?_
    rw [← hd]
    exact hr1c
  have hnfm1 : lookupA f1
      (register_include_location (register_include_location s f1 r1)
        f2 r2).normalized_files_map = some (f1.drop (r1.length + 1)) := by
    rw [hr2f f1 hne]
    exact hr1b
  have hnfm2 : lookupA f2
      (register_include_location (register_include_location s f1 r1)
        f2 r2).normalized_files_map = some (f1.drop (r1.length + 1)) := by
    rw [hd]
    exact hr2b
  have hdir1 : lookupA f1
      (register_include_location (register_include_location s f1 r1)
        f2 r2).file_to_include_directory = some r1 :=
    (normPreserve_register (register_include_location s f1 r1) f2 r2).1 f1 r1 hr1a
  have hpres := normPreserve_run ops _ s3 hrun
  have hc1 : containsA f1
      (register_include_location (register_include_location s f1 r1)
        f2 r2).file_to_include_directory = true := by
    simp [containsA, hdir1]
  have hc2 : containsA f2
      (register_include_location (register_include_location s f1 r1)
        f2 r2).file_to_include_directory = true := by
    simp [containsA, hr2a]
  have hnfm1' : lookupA f1 s3.normalized_files_map =
      some (f1.drop (r1.length + 1)) := hpres.2.1 f1 _ hc1 hnfm1
  have hnfm2' : lookupA f2 s3.normalized_files_map =
      some (f1.drop (r1.length + 1)) := hpres.2.1 f2 _ hc2 hnfm2
  have hconf3 : f1.drop (r1.length + 1) ∈ s3.conflicted_files :=
    hpres.2.2 _ hconf2
  refine ⟨?_, ?_, hconf3⟩
  · simp [normalized_file_name, hnfm1', hconf3]
  · simp [normalized_file_name, hnfm2', hconf3]

/-- Witness for C1 at the spec's own example: `/a/sub/x.h` with root `/a`
and `/b/sub/x.h` with root `/b` both normalize to `sub/x.h`; after both
registrations each resolves to its absolute path and `sub/x.h` is
conflicted. -/
theorem C1_display_name_conflict_is_permanent_witness :
    normalized_file_name
      (register_include_location
        (register_include_location initialState "/a/sub/x.h" "/a")
        "/b/sub/x.h" "/b") "/a/sub/x.h" = "/a/sub/x.h" ∧
    normalized_file_name
      (register_include_location
        (register_include_location initialState "/a/sub/x.h" "/a")
        "/b/sub/x.h" "/b") "/b/sub/x.h" = "/b/sub/x.h" ∧
    "/a/sub/x.h".drop ("/a".length + 1) ∈
      (register_include_location
        (register_include_location initialState "/a/sub/x.h" "/a")
        "/b/sub/x.h" "/b").conflicted_files :=
  C1_display_name_conflict_is_permanent initialState "/a/sub/x.h" "/a"
    "/b/sub/x.h" "/b" [] _ (by decide) (by decide) (by decide) (by decide)
    (by decide) (by decide) rfl

/-- C10: calling `start_preprocess_file` with a null file name, or with the
exact name `"<command-line>"`, is a complete no-op: the tracker state is
returned unchanged, so nothing is recorded, pushed, or registered, and no
PREPROCESS event can ever arise from such a call. -/
theorem C10_null_or_command_line_enter_is_noop (s : TrackingState)
    (resolved : Option (String × String)) (now : Int) :
    start_preprocess_file s none resolved now = s ∧
    start_preprocess_file s (some "<command-line>") resolved now = s := by
  exact ⟨rfl, by simp [start_preprocess_file]⟩

/-- C9: `end_preprocess_file` with an empty preprocessing stack has no
defined result: the original calls `std::stack::top()` / `pop()` on an
empty stack, which is undefined behaviour, not a checked abort; the
embedding accordingly yields `none` (no defined successor state). -/
theorem C9_leave_on_empty_stack_undefined (s : TrackingState) (now : Int)
    (h : s.preprocessing_stack = []) :
    end_preprocess_file s now = none := by
  simp [end_preprocess_file, h]

/-- Witness for C9: the initial state has an empty stack and
`end_preprocess_file` has no defined result on it. -/
theorem C9_leave_on_empty_stack_undefined_witness :
    initialState.preprocessing_stack = [] ∧
    end_preprocess_file initialState 5 = none :=
  ⟨rfl, C9_leave_on_empty_stack_undefined initialState 5 rfl⟩

/-- C7: `start_opt_pass` closes the previously open pass's span at the
current timestamp and appends it to the pending list (appending nothing
when no pass was open), then opens a new span for the given pass starting
1ns later; `write_opt_pass_events` emits exactly one Pass event per
pending (closed) pass and drops the still-open one, so
`enter_pass(P1); enter_pass(P2); finalize()` emits exactly one Pass event,
for P1. -/
theorem C7_pass_tracker (s : TrackingState) (p q : OptPass) (t1 t2 : Int)
    (h1 : s.last_pass.pass = none) (h2 : s.pass_events = []) :
    (∀ (st : TrackingState) (x : OptPass) (n : Int) (w : OptPass),
      st.last_pass.pass = some w →
      (start_opt_pass st x n).pass_events =
        st.pass_events ++ [OptPassEvent.mk (some w) ⟨st.last_pass.ts.start, n⟩] ∧
      (start_opt_pass st x n).last_pass = OptPassEvent.mk (some x) ⟨n + 1, n⟩) ∧
    (∀ (st : TrackingState) (x : OptPass) (n : Int),
      st.last_pass.pass = none →
      (start_opt_pass st x n).pass_events = st.pass_events ∧
      (start_opt_pass st x n).last_pass = OptPassEvent.mk (some x) ⟨n + 1, n⟩) ∧
    (∀ (st : TrackingState) (evs : List TraceEvent),
      write_opt_pass_events st = some evs → evs.length = st.pass_events.length) ∧
    write_opt_pass_events (start_opt_pass (start_opt_pass s p t1) q t2) =
      some [TraceEvent.mk p.name (pass_type p.type) ⟨t1 + 1, t2⟩
        (true, [("static_pass_number", toString p.static_pass_number)])] := by
  have hstep_some : ∀ (st : TrackingState) (x : OptPass) (n : Int) (w : OptPass),
      st.last_pass.pass = some w →
      (start_opt_pass st x n).pass_events =
        st.pass_events ++ [OptPassEvent.mk (some w) ⟨st.last_pass.ts.start, n⟩] ∧
      (start_opt_pass st x n).last_pass = OptPassEvent.mk (some x) ⟨n + 1, n⟩ := by
    intro st x n w hw
    unfold start_opt_pass
    dsimp only
    rw [hw]
    exact ⟨rfl, rfl⟩
  have hstep_none : ∀ (st : TrackingState) (x : OptPass) (n : Int),
      st.last_pass.pass = none →
      (start_opt_pass st x n).pass_events = st.pass_events ∧
      (start_opt_pass st x n).last_pass = OptPassEvent.mk (some x) ⟨n + 1, n⟩ := by
    intro st x n hw
    unfold start_opt_pass
    dsimp only
    rw [hw]
    exact ⟨rfl, rfl⟩
  have hlen : ∀ (pes : List OptPassEvent) (evs : List TraceEvent),
      passWriteGo pes = some evs → evs.length = pes.length := by
    intro pes
    induction pes with
    | nil =>
      intro evs h
      cases h
      rfl
    | cons e rest ih =>
      intro evs h
      rw [passWriteGo] at h
      cases he : e.pass with
      | none => rw [he] at h; cases h
      | some pp =>
        rw [he] at h
        cases hrest : passWriteGo rest with
        | none => rw [hrest] at h; cases h
        | some evs' =>
          rw [hrest] at h
          simp only [Option.map_some] at h
          cases h
          simp [ih evs' hrest]
  refine ⟨hstep_some, hstep_none, fun st evs h => hlen _ evs h, ?_⟩
  rcases hstep_none s p t1 h1 with ⟨ha, hb⟩
  rcases hstep_some (start_opt_pass s p t1) q t2 p (by rw [hb]) with ⟨hc, hdl⟩
  rw [write_opt_pass_events, hc, ha, h2, hb]
  rfl

/-- Witness for C7 at a concrete input: two passes entered at times 10 and
20 from the initial state; finalization emits exactly the first pass's
event, spanning 11 to 20. -/
theorem C7_pass_tracker_witness :
    write_opt_pass_events
      (start_opt_pass
        (start_opt_pass initialState (OptPass.mk "p1" OptPassType.GIMPLE_PASS 7) 10)
        (OptPass.mk "p2" OptPassType.RTL_PASS 8) 20) =
      some [TraceEvent.mk "p1" (pass_type OptPassType.GIMPLE_PASS) ⟨11, 20⟩
        (true, [("static_pass_number", toString (7 : Int))])] :=
  (C7_pass_tracker initialState (OptPass.mk "p1" OptPassType.GIMPLE_PASS 7)
    (OptPass.mk "p2" OptPassType.RTL_PASS 8) 10 20 rfl rfl).2.2.2

/-- C6: two consecutive `end_parse_function` calls with the same non-null
scope name (starting from a state in which that scope is not currently
accumulating) emit exactly one new scope event, spanning from 1ns before
the first function's start (the cursor plus 2) to 1ns after the second
function's end; a third call with a different scope name leaves that event
closed and appends a fresh accumulator spanning from 1ns before the third
function's start to 1ns after its end. -/
theorem C6_scope_coalescing (s : TrackingState) (n m : String)
    (i1 i2 i3 : FinishedFunction) (t1 t2 t3 : Int)
    (hpre : s.did_last_function_have_scope = false ∨
      ∀ ev, s.scope_events.getLast? = some ev → ev.name ≠ n)
    (h1 : i1.scope_name = some n) (h2 : i2.scope_name = some n)
    (h3 : i3.scope_name = some m) (hnm : m ≠ n) :
    (end_parse_function (end_parse_function s i1 t1) i2 t2).scope_events =
      s.scope_events ++
        [ScopeEvent.mk n i1.scope_type ⟨s.last_function_parsed_ts + 2, t2 + 1⟩] ∧
    (end_parse_function (end_parse_function
        (end_parse_function s i1 t1) i2 t2) i3 t3).scope_events =
      s.scope_events ++
        [ScopeEvent.mk n i1.scope_type ⟨s.last_function_parsed_ts + 2, t2 + 1⟩,
         ScopeEvent.mk m i3.scope_type ⟨t2 + 2, t3 + 1⟩] := by
  have harith : ∀ x : Int, x + 3 - 1 = x + 2 := fun x => by ring
  have step1 :
      (end_parse_function s i1 t1).scope_events =
        s.scope_events ++
          [ScopeEvent.mk n i1.scope_type
            ⟨s.last_function_parsed_ts + 2, t1 + 1⟩] ∧
      (end_parse_function s i1 t1).did_last_function_have_scope = true ∧
      (end_parse_function s i1 t1).last_function_parsed_ts = t1 := by
    unfold end_parse_function
    rw [h1]
    dsimp only
    cases hlast : s.scope_events.getLast? with
    | none =>
      dsimp only
      have hnil : s.scope_events = [] := List.getLast?_eq_none_iff.mp hlast
      rw [hnil, harith]
      refine ⟨?_, ?_, ?_⟩ <;> trivial
    | some lastEv =>
      dsimp only
      have hcond : (s.did_last_function_have_scope && (lastEv.name == n)) = false := by
        rcases hpre with hb | hb
        · rw [hb]
          rfl
        · have hb' := hb lastEv hlast
          simp [hb']
      rw [hcond]
      simp only [Bool.false_eq_true, if_false]
      rw [harith]
      refine ⟨?_, ?_, ?_⟩ <;> trivial
  rcases step1 with ⟨hs1, hd1, hc1⟩
  have step2 :
      (end_parse_function (end_parse_function s i1 t1) i2 t2).scope_events =
        s.scope_events ++
          [ScopeEvent.mk n i1.scope_type
            ⟨s.last_function_parsed_ts + 2, t2 + 1⟩] ∧
      (end_parse_function (end_parse_function s i1 t1) i2 t2).did_last_function_have_scope
        = true ∧
      (end_parse_function (end_parse_function s i1 t1) i2 t2).last_function_parsed_ts
        = t2 := by
    generalize hu : end_parse_function s i1 t1 = u at hs1 hd1 hc1 ⊢
    unfold end_parse_function
    rw [h2]
    dsimp only
    rw [hs1, List.getLast?_concat]
    dsimp only
    have hcond2 : (u.did_last_function_have_scope &&
        ((ScopeEvent.mk n i1.scope_type
          ⟨s.last_function_parsed_ts + 2, t1 + 1⟩).name == n)) = true := by
      rw [hd1]
      simp
    rw [if_pos hcond2]
    dsimp only
    rw [List.dropLast_concat]
    exact ⟨rfl, rfl, rfl⟩
  rcases step2 with ⟨hs2, hd2, hc2⟩
  refine ⟨hs2, ?_⟩
  generalize hv : end_parse_function (end_parse_function s i1 t1) i2 t2 = v
    at hs2 hd2 hc2 ⊢
  unfold end_parse_function
  rw [h3]
  dsimp only
  rw [hs2, List.getLast?_concat]
  dsimp only
  have hcond3 : (v.did_last_function_have_scope &&
      ((ScopeEvent.mk n i1.scope_type
        ⟨s.last_function_parsed_ts + 2, t2 + 1⟩).name == m)) = false := by
    rw [hd2]
    simp [Ne.symm hnm]
  rw [hcond3]
  simp only [Bool.false_eq_true, if_false]
  rw [hc2, harith, List.append_assoc]
  rfl

/-- Witness for C6 at a concrete input: functions in scope `"Foo"` finished
at times 10 and 20, then one in scope `"Bar"` at time 30, from the initial
state: one `"Foo"` event spanning 2 to 21, then a `"Bar"` event spanning 22
to 31. -/
theorem C6_scope_coalescing_witness :
    (end_parse_function (end_parse_function initialState
        (FinishedFunction.mk "f1" "a.cc" (some "Foo") EventCategory.NAMESPACE) 10)
        (FinishedFunction.mk "f2" "a.cc" (some "Foo") EventCategory.NAMESPACE)
        20).scope_events =
      [ScopeEvent.mk "Foo" EventCategory.NAMESPACE ⟨2, 21⟩] ∧
    (end_parse_function (end_parse_function (end_parse_function initialState
        (FinishedFunction.mk "f1" "a.cc" (some "Foo") EventCategory.NAMESPACE) 10)
        (FinishedFunction.mk "f2" "a.cc" (some "Foo") EventCategory.NAMESPACE) 20)
        (FinishedFunction.mk "f3" "a.cc" (some "Bar") EventCategory.STRUCT)
        30).scope_events =
      [ScopeEvent.mk "Foo" EventCategory.NAMESPACE ⟨2, 21⟩,
       ScopeEvent.mk "Bar" EventCategory.STRUCT ⟨22, 31⟩] := by
  have h := C6_scope_coalescing initialState "Foo" "Bar"
    (FinishedFunction.mk "f1" "a.cc" (some "Foo") EventCategory.NAMESPACE)
    (FinishedFunction.mk "f2" "a.cc" (some "Foo") EventCategory.NAMESPACE)
    (FinishedFunction.mk "f3" "a.cc" (some "Bar") EventCategory.STRUCT)
    10 20 30 (Or.inl rfl) rfl rfl rfl (by decide)
  constructor
  · rw [h.1]
    rfl
  · rw [h.2]
    rfl

/-- One `end_parse_function` call appends exactly one function event,
spanning from 3ns after the cursor to the clock reading, and moves the
cursor to the clock reading, whatever the scope bookkeeping does. -/
theorem end_parse_function_fn_events (s : TrackingState) (i : FinishedFunction)
    (t : Int) :
    (end_parse_function s i t).function_events =
      s.function_events ++
        [FunctionEvent.mk i.name i.file_name ⟨s.last_function_parsed_ts + 3, t⟩] ∧
    (end_parse_function s i t).last_function_parsed_ts = t := by
  unfold end_parse_function
  cases i.scope_name with
  | none => exact ⟨rfl, rfl⟩
  | some sn =>
    dsimp only
    cases s.scope_events.getLast? with
    | none => exact ⟨rfl, rfl⟩
    | some lastEv =>
      dsimp only
      split_ifs <;> exact ⟨rfl, rfl⟩

theorem runFunctions_spans (calls : List (FinishedFunction × Int)) :
    ∀ s : TrackingState,
      (runFunctions s calls).function_events.map (fun e => e.ts) =
        s.function_events.map (fun e => e.ts) ++
          expectedSpans s.last_function_parsed_ts (calls.map (fun c => c.2)) := by
  induction calls with
  | nil => intro s; simp [runFunctions, expectedSpans]
  | cons c rest ih =>
    intro s
    rcases c with ⟨i, t⟩
    rcases end_parse_function_fn_events s i t with ⟨hfe, hc⟩
    show (runFunctions (end_parse_function s i t) rest).function_events.map _ = _
    rw [ih (end_parse_function s i t), hfe, hc]
    simp [expectedSpans]

theorem expectedSpans_bounds : ∀ (c : Int) (ns : List Int),
    ChainFrom (fun a b => a + 3 ≤ b) c ns →
    ∀ sp ∈ expectedSpans c ns, c + 3 ≤ sp.start ∧ c + 3 ≤ sp.end_ ∧
      sp.start ≤ sp.end_
  | _, [], _, sp, hsp => by simp [expectedSpans] at hsp
  | c, n :: rest, ⟨h1, h2⟩, sp, hsp => by
    rw [expectedSpans] at hsp
    rcases List.mem_cons.mp hsp with h | h
    · subst h
      exact ⟨le_refl _, h1, h1⟩
    · rcases expectedSpans_bounds n rest h2 sp h with ⟨ha, hb, hab⟩
      have : c + 3 ≤ n + 3 := by linarith
      exact ⟨le_trans this ha, le_trans this hb, hab⟩

theorem expectedSpans_pairwise : ∀ (c : Int) (ns : List Int),
    ChainFrom (fun a b => a + 3 ≤ b) c ns →
    List.Pairwise (fun a b : TimeSpan =>
      a.start < b.start ∧ a.end_ < b.end_ ∧ a.end_ < b.start)
      (expectedSpans c ns)
  | _, [], _ => by simp [expectedSpans]
  | c, n :: rest, ⟨h1, h2⟩ => by
    rw [expectedSpans]
    refine List.pairwise_cons.mpr ⟨fun sp hsp => ?_, expectedSpans_pairwise n rest h2⟩
    rcases expectedSpans_bounds n rest h2 sp hsp with ⟨ha, hb, -⟩
    have h1' : c + 3 ≤ n := h1
    refine ⟨?_, ?_, ?_⟩ <;> dsimp only <;> linarith

/-- C2 counterexample: from the initial state, two `end_parse_function`
calls with the clock stuck at 0 produce two FUNCTION events with identical
start (3) and identical end (0) - and the spans are inverted (start > end)
- contradicting the claim that function events are strictly time-ordered
with distinct boundaries even when the clock returns identical values. -/
theorem C2_stalled_clock_counterexample :
    (runFunctions initialState
      [(FinishedFunction.mk "f" "a.cc" none EventCategory.UNKNOWN, 0),
       (FinishedFunction.mk "f" "a.cc" none EventCategory.UNKNOWN, 0)]).function_events.map
        (fun e => e.ts) = [⟨3, 0⟩, ⟨3, 0⟩] ∧
    ¬ (3 : Int) ≤ 0 :=
  ⟨rfl, by decide⟩

/-- C2 (amended): every `end_parse_function` call appends exactly one
FUNCTION event spanning from 3ns after the shared cursor to the current
clock reading; provided the clock advances by at least 3ns between
consecutive readings (starting from the cursor), the emitted events are
strictly time-ordered and non-overlapping with pairwise-distinct start and
end timestamps.  (With identical consecutive clock readings the events
share end timestamps, as the counterexample shows, so the claim's
"even when the clock returns identical values" part is dropped.) -/
theorem C2_sequential_function_events (s : TrackingState)
    (calls : List (FinishedFunction × Int))
    (h0 : s.function_events = [])
    (hclk : ChainFrom (fun a b => a + 3 ≤ b) s.last_function_parsed_ts
      (calls.map (fun c => c.2))) :
    (runFunctions s calls).function_events.length = calls.length ∧
    (runFunctions s calls).function_events.map (fun e => e.ts) =
      expectedSpans s.last_function_parsed_ts (calls.map (fun c => c.2)) ∧
    (∀ e ∈ (runFunctions s calls).function_events, e.ts.start ≤ e.ts.end_) ∧
    List.Pairwise (fun a b : FunctionEvent =>
      a.ts.start < b.ts.start ∧ a.ts.end_ < b.ts.end_ ∧ a.ts.end_ < b.ts.start)
      (runFunctions s calls).function_events ∧
    (write_all_functions (runFunctions s calls)).length = calls.length := by
  have hspans := runFunctions_spans calls s
  rw [h0] at hspans
  simp only [List.map_nil, List.nil_append] at hspans
  have hlenspans : ∀ (c : Int) (ns : List Int), (expectedSpans c ns).length = ns.length := by
    intro c ns
    induction ns generalizing c with
    | nil => rfl
    | cons n rest ih => simp [expectedSpans, ih]
  have hlen : (runFunctions s calls).function_events.length = calls.length := by
    have := congrArg List.length hspans
    simpa [hlenspans] using this
  refine ⟨hlen, hspans, ?_, ?_, ?_⟩
  · intro e he
    have : e.ts ∈ (runFunctions s calls).function_events.map (fun e => e.ts) :=
      List.mem_map_of_mem _ he
    rw [hspans] at this
    exact (expectedSpans_bounds _ _ hclk e.ts this).2.2
  · have hpw := expectedSpans_pairwise _ _ hclk
    rw [← hspans] at hpw
    exact (List.pairwise_map).mp hpw
  · simp [write_all_functions, hlen]

/-- Witness for C2 (amended) at a concrete input: two functions finished at
times 10 and 20 from the initial state; the two events span 3 to 10 and 13
to 20 - sequential, non-overlapping, distinct boundaries. -/
theorem C2_sequential_function_events_witness :
    (runFunctions initialState
      [(FinishedFunction.mk "f1" "a.cc" none EventCategory.UNKNOWN, 10),
       (FinishedFunction.mk "f2" "a.cc" none EventCategory.UNKNOWN, 20)]).function_events.map
        (fun e => e.ts) = expectedSpans 0 [10, 20] ∧
    (write_all_functions (runFunctions initialState
      [(FinishedFunction.mk "f1" "a.cc" none EventCategory.UNKNOWN, 10),
       (FinishedFunction.mk "f2" "a.cc" none EventCategory.UNKNOWN, 20)])).length = 2 := by
  have h := C2_sequential_function_events initialState
    [(FinishedFunction.mk "f1" "a.cc" none EventCategory.UNKNOWN, 10),
     (FinishedFunction.mk "f2" "a.cc" none EventCategory.UNKNOWN, 20)]
    rfl ⟨by decide, by decide, trivial⟩
  exact ⟨h.2.1, h.2.2.2.2⟩

/-! ### Preservation of the preprocessing-tracker invariant -/

theorem containsA_mapSet_self {α : Type} (k : String) (v : α)
    (m : List (String × α)) : containsA k (mapSet k v m) = true := by
  simp [containsA, lookupA_mapSet_self]

theorem containsA_mapSet_other {α : Type} (k g : String) (v : α)
    (m : List (String × α)) (h : k ≠ g) :
    containsA g (mapSet k v m) = containsA g m := by
  simp [containsA, lookupA_mapSet_ne k g v h]

theorem containsA_mapSet_mono {α : Type} (k g : String) (v : α)
    (m : List (String × α)) (h : containsA g m = true) :
    containsA g (mapSet k v m) = true := by
  by_cases hkg : k = g
  · subst hkg
    exact containsA_mapSet_self k v m
  · rw [containsA_mapSet_other k g v m hkg]
    exact h

theorem lookupA_new_key {α : Type} (g k : String) (v : α) (m : List (String × α)) :
    lookupA g (mapSet k v m) = if k = g then some v else lookupA g m := by
  by_cases hkg : k = g
  · subst hkg
    rw [if_pos rfl, lookupA_mapSet_self]
  · rw [if_neg hkg, lookupA_mapSet_ne k g v hkg]

theorem nodup_keys_mapSet_new {α : Type} (k : String) (v : α)
    (m : List (String × α)) (hk : containsA k m = false)
    (hnd : (m.map Prod.fst).Nodup) : ((mapSet k v m).map Prod.fst).Nodup := by
  rw [mapSet_of_not_contains k v m hk, List.map_append]
  rw [List.nodup_append]
  refine ⟨hnd, List.nodup_singleton k, fun a ha hb => ?_⟩
  simp only [List.map_cons, List.map_nil, List.mem_singleton] at hb
  subst hb
  have : containsA a m = true := (containsA_iff_mem_keys a m).mpr ha
  rw [hk] at this
  cases this

theorem ppInv_mono {c c' : Int} {names : List String} {s : TrackingState}
    (hcc : c ≤ c') (inv : PpInv c names s) : PpInv c' names s :=
  ⟨inv.nodup, inv.keys_match,
   fun f v hl => le_trans (inv.start_le f v hl) hcc,
   inv.pair_le, inv.open_on_stack, inv.stack_started, inv.end_sub⟩

theorem ppInv_transport {c : Int} {names : List String} {s s' : TrackingState}
    (hpp : ppParts s' = ppParts s) (inv : PpInv c names s) : PpInv c names s' := by
  rcases ppParts_eq_iff hpp with ⟨h1, h2, h3⟩
  refine ⟨?_, ?_, ?_, ?_, ?_, ?_, ?_⟩
  · rw [h1]
    exact inv.nodup
  · intro f hf
    rw [h1]
    exact inv.keys_match f hf
  · intro f v
    rw [h1]
    exact inv.start_le f v
  · intro f u v
    rw [h1, h2]
    exact inv.pair_le f u v
  · intro f
    rw [h1, h2, h3]
    exact inv.open_on_stack f
  · intro f
    rw [h3, h1]
    exact inv.stack_started f
  · intro f
    rw [h2, h1]
    exact inv.end_sub f

theorem ppInv_enterFile {c : Int} {names : List String} {s : TrackingState}
    (f : Option String) (r : Option (String × String)) (now : Int)
    (inv : PpInv c names s) (hc : c ≤ now) :
    PpInv now (names ++ effNamesOp (Op.enterFile f r now))
      (start_preprocess_file s f r now) := by
  cases f with
  | none =>
    show PpInv now (names ++ []) s
    rw [List.append_nil]
    exact ppInv_mono hc inv
  | some f0 =>
    by_cases hcmd : f0 = "<command-line>"
    · subst hcmd
      have hnoop : start_preprocess_file s (some "<command-line>") r now = s := by
        simp [start_preprocess_file]
      rw [hnoop]
      have heff : effNamesOp (Op.enterFile (some "<command-line>") r now) = [] := by
        simp [effNamesOp]
      rw [heff, List.append_nil]
      exact ppInv_mono hc inv
    · have heff : effNamesOp (Op.enterFile (some f0) r now) = [f0] := by
        simp [effNamesOp, hcmd]
      rw [heff]
      rcases start_preprocess_file_shape s f0 r now hcmd with ⟨fkey, r', heq, hcase⟩
      dsimp only at heq
      have hA : fkey = CIRCULAR_POISON_VALUE ∨ fkey = f0 := by
        by_cases hcirc :
            (containsA f0 s.preprocess_start && !containsA f0 s.preprocess_end) = true
        · rw [if_pos hcirc] at hcase
          exact Or.inl hcase.1
        · rw [if_neg hcirc] at hcase
          exact Or.inr hcase.1
      have hB : f0 ≠ CIRCULAR_POISON_VALUE → fkey = CIRCULAR_POISON_VALUE →
          containsA f0 s.preprocess_start = true := by
        intro hf0 hfk
        by_cases hcirc :
            (containsA f0 s.preprocess_start && !containsA f0 s.preprocess_end) = true
        · exact (Bool.and_eq_true_iff.mp hcirc).1
        · rw [if_neg hcirc] at hcase
          rw [hfk] at hcase
          exact absurd hcase.1.symm hf0
      -- the invariant holds for the intermediate pushed state
      have hkeyInv : PpInv now (names ++ [f0])
          { (if containsA fkey s.preprocess_start = true then s
             else { s with preprocess_start := mapSet fkey now s.preprocess_start }) with
            preprocessing_stack :=
              fkey :: (if containsA fkey s.preprocess_start = true then s
                       else { s with
                         preprocess_start :=
                           mapSet fkey now s.preprocess_start }).preprocessing_stack } := by
        by_cases hk : containsA fkey s.preprocess_start = true
        · rw [if_pos hk]
          refine ⟨inv.nodup, ?_, ?_, inv.pair_le, ?_, ?_, inv.end_sub⟩
          · intro g hg
            rw [List.mem_append, List.mem_singleton]
            constructor
            · intro h
              exact Or.inl ((inv.keys_match g hg).mp h)
            · rintro (h | rfl)
              · exact (inv.keys_match g hg).mpr h
              · rcases hA with hfk | hfk
                · exact hB hg hfk
                · rw [← hfk]
                  exact hk
          · intro g v hl
            exact le_trans (inv.start_le g v hl) hc
          · intro g hgs hge
            exact List.mem_cons_of_mem fkey (inv.open_on_stack g hgs hge)
          · intro g hg
            rcases List.mem_cons.mp hg with rfl | hg'
            · exact hk
            · exact inv.stack_started g hg'
        · have hkf : containsA fkey s.preprocess_start = false := by
            cases hkk : containsA fkey s.preprocess_start with
            | true => exact absurd hkk hk
            | false => rfl
          rw [if_neg hk]
          refine ⟨nodup_keys_mapSet_new fkey now _ hkf inv.nodup, ?_, ?_, ?_, ?_, ?_, ?_⟩
          · intro g hg
            rw [List.mem_append, List.mem_singleton]
            by_cases hgf : fkey = g
            · subst hgf
              rw [containsA_mapSet_self]
              have : fkey = f0 := by
                rcases hA with h | h
                · exact absurd h hg
                · exact h
              subst this
              simp
            · rw [containsA_mapSet_other fkey g now _ hgf]
              constructor
              · intro h
                exact Or.inl ((inv.keys_match g hg).mp h)
              · rintro (h | rfl)
                · exact (inv.keys_match g hg).mpr h
                · rcases hA with hfk | hfk
                  · exact hB hg hfk
                  · rw [hfk] at hgf
                    exact absurd rfl hgf
          · intro g v hl
            rw [lookupA_new_key g fkey now s.preprocess_start] at hl
            by_cases hgf : fkey = g
            · rw [if_pos hgf] at hl
              cases hl
              exact le_refl now
            · rw [if_neg hgf] at hl
              exact le_trans (inv.start_le g v hl) hc
          · intro g u v hlu hlv
            rw [lookupA_new_key g fkey now s.preprocess_start] at hlu
            by_cases hgf : fkey = g
            · subst hgf
              have : containsA fkey s.preprocess_start = true :=
                inv.end_sub fkey (by simp [containsA, hlv])
              rw [hkf] at this
              cases this
            · rw [if_neg hgf] at hlu
              exact inv.pair_le g u v hlu hlv
          · intro g hgs hge
            by_cases hgf : fkey = g
            · subst hgf
              exact List.mem_cons_self _ _
            · rw [containsA_mapSet_other fkey g now _ hgf] at hgs
              exact List.mem_cons_of_mem fkey (inv.open_on_stack g hgs hge)
          · intro g hg
            rcases List.mem_cons.mp hg with rfl | hg'
            · exact containsA_mapSet_self g now _
            · exact containsA_mapSet_mono fkey g now _ (inv.stack_started g hg')
          · intro g hge
            exact containsA_mapSet_mono fkey g now _ (inv.end_sub g hge)
      rw [heq]
      match r' with
      | none => exact hkeyInv
      | some (rf, rd) =>
        exact ppInv_transport (register_frame _ rf rd).1 hkeyInv

theorem ppInv_end_preprocess_file {c : Int} {names : List String}
    {s s' : TrackingState} (now : Int)
    (inv : PpInv c names s) (hc : c ≤ now)
    (h : end_preprocess_file s now = some s') : PpInv now names s' := by
  cases hstk : s.preprocessing_stack with
  | nil => simp [end_preprocess_file, hstk] at h
  | cons top rest =>
    simp only [end_preprocess_file, hstk] at h
    split_ifs at h with hce <;> cases h
    · -- the top already has an end recorded: only the stack pops
      refine ⟨inv.nodup, inv.keys_match, ?_, inv.pair_le, ?_, ?_, inv.end_sub⟩
      · intro g v hl
        exact le_trans (inv.start_le g v hl) hc
      · intro g hgs hge
        have := inv.open_on_stack g hgs hge
        rw [hstk] at this
        rcases List.mem_cons.mp this with rfl | hmem
        · rw [hce] at hge
          cases hge
        · exact hmem
      · intro g hg
        exact inv.stack_started g (by rw [hstk]; exact List.mem_cons_of_mem top hg)
    · -- record the end timestamp for the top, then pop
      refine ⟨inv.nodup, inv.keys_match, ?_, ?_, ?_, ?_, ?_⟩
      · intro g v hl
        exact le_trans (inv.start_le g v hl) hc
      · intro g u v hlu hlv
        rw [lookupA_new_key g top now s.preprocess_end] at hlv
        by_cases hgt : top = g
        · rw [if_pos hgt] at hlv
          cases hlv
          exact le_trans (inv.start_le g u hlu) hc
        · rw [if_neg hgt] at hlv
          exact inv.pair_le g u v hlu hlv
      · intro g hgs hge
        by_cases hgt : top = g
        · subst hgt
          rw [containsA_mapSet_self] at hge
          cases hge
        · rw [containsA_mapSet_other top g now _ hgt] at hge
          have := inv.open_on_stack g hgs hge
          rw [hstk] at this
          rcases List.mem_cons.mp this with rfl | hmem
          · exact absurd rfl hgt
          · exact hmem
      · intro g hg
        exact inv.stack_started g (by rw [hstk]; exact List.mem_cons_of_mem top hg)
      · intro g hge
        by_cases hgt : top = g
        · rw [← hgt]
          exact inv.stack_started top (by rw [hstk]; exact List.mem_cons_self _ _)
        · rw [containsA_mapSet_other top g now _ hgt] at hge
          exact inv.end_sub g hge

theorem ppInv_cursor_set {c : Int} {names : List String} {s : TrackingState}
    (t : Int) (inv : PpInv c names s) :
    PpInv c names { s with last_function_parsed_ts := t } :=
  ⟨inv.nodup, inv.keys_match, inv.start_le, inv.pair_le, inv.open_on_stack,
   inv.stack_started, inv.end_sub⟩

theorem ppInv_finish_stage : ∀ (clock : List (Int × Int)) {c : Int}
    {names : List String} {s : TrackingState},
    PpInv c names s → ChainFrom (fun a b => a ≤ b) c (ppFlat clock) →
    PpInv (lastOf c (ppFlat clock)) names (finish_preprocessing_stage s clock)
  | [], _, _, _, inv, _ => inv
  | (t1, t2) :: rest, c, names, s, inv, hchain => by
    have hflat : ppFlat ((t1, t2) :: rest) = t1 :: t2 :: ppFlat rest := by
      simp [ppFlat]
    rw [hflat] at hchain ⊢
    rcases hchain with ⟨h1, h2, h3⟩
    have hlast : lastOf c (t1 :: t2 :: ppFlat rest) = lastOf t2 (ppFlat rest) := rfl
    rw [hlast]
    by_cases he : s.preprocessing_stack.isEmpty
    · rw [finish_preprocessing_stage, if_pos he]
      have : t2 ≤ lastOf t2 (ppFlat rest) := le_lastOf t2 (ppFlat rest) h3
      exact ppInv_mono (by linarith) inv
    · rw [finish_preprocessing_stage, if_neg he]
      cases hstep : end_preprocess_file s t1 with
      | none =>
        have : t2 ≤ lastOf t2 (ppFlat rest) := le_lastOf t2 (ppFlat rest) h3
        exact ppInv_mono (by linarith) inv
      | some s1 =>
        have inv1 : PpInv t1 names s1 := ppInv_end_preprocess_file t1 inv h1 hstep
        have inv2 : PpInv t2 names { s1 with last_function_parsed_ts := t2 } :=
          ppInv_mono h2 (ppInv_cursor_set t2 inv1)
        exact ppInv_finish_stage rest inv2 h3

theorem ppInv_step {c : Int} {names : List String} {s s' : TrackingState} {op : Op}
    (inv : PpInv c names s)
    (hclk : ChainFrom (fun a b => a ≤ b) c (opReadings op))
    (h : step s op = some s') :
    PpInv (lastOf c (opReadings op)) (names ++ effNamesOp op) s' := by
  cases op with
  | enterFile f r n =>
    cases h
    exact ppInv_enterFile f r n inv hclk.1
  | leaveFile n =>
    have heff : effNamesOp (Op.leaveFile n) = [] := rfl
    rw [heff, List.append_nil]
    exact ppInv_end_preprocess_file n inv hclk.1 h
  | enterPass p n =>
    cases h
    have heff : effNamesOp (Op.enterPass p n) = [] := rfl
    rw [heff, List.append_nil]
    exact ppInv_mono hclk.1 (ppInv_transport (start_opt_pass_frame s p n).1 inv)
  | finishFunction i n =>
    cases h
    have heff : effNamesOp (Op.finishFunction i n) = [] := rfl
    rw [heff, List.append_nil]
    exact ppInv_mono hclk.1 (ppInv_transport (end_parse_function_frame s i n).1 inv)
  | finishStage clk =>
    cases h
    have heff : effNamesOp (Op.finishStage clk) = [] := rfl
    rw [heff, List.append_nil]
    exact ppInv_finish_stage clk inv hclk

theorem lastOf_append (c : Int) (l1 l2 : List Int) :
    lastOf c (l1 ++ l2) = lastOf (lastOf c l1) l2 := by
  induction l1 generalizing c with
  | nil => rfl
  | cons t rest ih => exact ih t

theorem readings_cons (op : Op) (rest : List Op) :
    readings (op :: rest) = opReadings op ++ readings rest := by
  simp [readings]

theorem effNames_cons (op : Op) (rest : List Op) :
    effNames (op :: rest) = effNamesOp op ++ effNames rest := by
  simp [effNames]

theorem ppInv_run : ∀ (ops : List Op) {c : Int} {names : List String}
    {s s' : TrackingState},
    PpInv c names s →
    ChainFrom (fun a b => a ≤ b) c (readings ops) →
    run s ops = some s' →
    PpInv (lastOf c (readings ops)) (names ++ effNames ops) s'
  | [], c, names, s, s', inv, _, h => by
    cases h
    show PpInv (lastOf c (readings [])) (names ++ effNames []) s
    simp only [readings, effNames, List.map_nil, List.flatten_nil, List.append_nil]
    exact inv
  | op :: rest, c, names, s, s', inv, hclk, h => by
    rw [readings_cons] at hclk ⊢
    rw [effNames_cons]
    rcases (chainFrom_append c (opReadings op) (readings rest)).mp hclk with ⟨h1, h2⟩
    simp only [run] at h
    cases hstep : step s op with
    | none => rw [hstep] at h; cases h
    | some s1 =>
      rw [hstep] at h
      have inv1 := ppInv_step inv h1 hstep
      have inv2 := ppInv_run rest inv1 h2 h
      rw [lastOf_append]
      rw [← List.append_assoc]
      exact inv2

/-! ### Cleanliness of stored display names -/

theorem nfmClean_of_normParts {s s' : TrackingState}
    (h : normParts s' = normParts s) (hc : NfmClean s) : NfmClean s' := by
  rcases normParts_eq_iff h with ⟨-, h2, -, -⟩
  intro k v hl
  rw [h2] at hl
  exact hc k v hl

theorem nfmClean_register (s : TrackingState) (fn dn : String)
    (hclean : NfmClean s)
    (hval : fn.drop (dn.length + 1) ≠ CIRCULAR_POISON_VALUE) :
    NfmClean (register_include_location s fn dn) := by
  intro k v hl
  by_cases hc : containsA fn s.file_to_include_directory = true
  · unfold register_include_location at hl
    rw [if_pos hc] at hl
    exact hclean k v hl
  · unfold register_include_location at hl
    rw [if_neg hc] at hl
    dsimp only at hl
    by_cases hpre : starts_with fn dn = true
    · rw [if_pos hpre] at hl
      split_ifs at hl <;>
        (rw [lookupA_new_key k fn _ _] at hl
         by_cases hkf : fn = k
         · rw [if_pos hkf] at hl
           cases hl
           exact hval
         · rw [if_neg hkf] at hl
           exact hclean k v hl)
    · rw [if_neg hpre] at hl
      exact hclean k v hl

theorem nfmClean_start_preprocess_file (s : TrackingState) (f : Option String)
    (r : Option (String × String)) (now : Int) (hclean : NfmClean s)
    (hfree : opPoisonFree (Op.enterFile f r now)) :
    NfmClean (start_preprocess_file s f r now) := by
  cases f with
  | none => exact hclean
  | some f0 =>
    by_cases hcmd : f0 = "<command-line>"
    · subst hcmd
      have hnoop : start_preprocess_file s (some "<command-line>") r now = s := by
        simp [start_preprocess_file]
      rw [hnoop]
      exact hclean
    · rcases start_preprocess_file_shape s f0 r now hcmd with ⟨fkey, r', heq, hcase⟩
      dsimp only at heq
      rw [heq]
      have hbase : NfmClean
          { (if containsA fkey s.preprocess_start = true then s
             else { s with preprocess_start := mapSet fkey now s.preprocess_start }) with
            preprocessing_stack :=
              fkey :: (if containsA fkey s.preprocess_start = true then s
                       else { s with
                         preprocess_start :=
                           mapSet fkey now s.preprocess_start }).preprocessing_stack } := by
        refine nfmClean_of_normParts ?_ hclean
        split_ifs <;> rfl
      match hr' : r' with
      | none => exact hbase
      | some (rf, rd) =>
        have hrr : r = some (rf, rd) := by
          by_cases hcirc :
              (containsA f0 s.preprocess_start && !containsA f0 s.preprocess_end) = true
          · rw [if_pos hcirc] at hcase
            cases hcase.2
          · rw [if_neg hcirc] at hcase
            exact hcase.2.symm
        rcases hfree with ⟨-, hres⟩
        exact nfmClean_register _ rf rd hbase ((hres (rf, rd) hrr).2)

theorem nfmClean_step {s s' : TrackingState} {op : Op}
    (hclean : NfmClean s) (hfree : opPoisonFree op)
    (h : step s op = some s') : NfmClean s' := by
  cases op with
  | enterFile f r n =>
    cases h
    exact nfmClean_start_preprocess_file s f r n hclean hfree
  | leaveFile n =>
    exact nfmClean_of_normParts (end_preprocess_file_frame s n s' h).1 hclean
  | enterPass p n =>
    cases h
    exact nfmClean_of_normParts (start_opt_pass_frame s p n).2.1 hclean
  | finishFunction i n =>
    cases h
    exact nfmClean_of_normParts (end_parse_function_frame s i n).2.1 hclean
  | finishStage c =>
    cases h
    exact nfmClean_of_normParts (finish_preprocessing_stage_frame s c).1 hclean

theorem nfmClean_run : ∀ (ops : List Op) {s s' : TrackingState},
    NfmClean s → (∀ op ∈ ops, opPoisonFree op) → run s ops = some s' →
    NfmClean s'
  | [], s, s', hc, _, h => by
    cases h
    exact hc
  | op :: rest, s, s', hc, hfree, h => by
    simp only [run] at h
    cases hstep : step s op with
    | none => rw [hstep] at h; cases h
    | some s1 =>
      rw [hstep] at h
      exact nfmClean_run rest
        (nfmClean_step hc (hfree op (List.mem_cons_self _ _)) hstep)
        (fun o ho => hfree o (List.mem_cons_of_mem _ ho)) h

/-! ### Well-nestedness: the run succeeds and its stack depth is tracked -/

theorem start_preprocess_file_stack_len (s : TrackingState) (f : Option String)
    (r : Option (String × String)) (now : Int) :
    (start_preprocess_file s f r now).preprocessing_stack.length =
      s.preprocessing_stack.length + (effNamesOp (Op.enterFile f r now)).length := by
  cases f with
  | none => simp [start_preprocess_file, effNamesOp]
  | some f0 =>
    by_cases hcmd : f0 = "<command-line>"
    · subst hcmd
      have hnoop : start_preprocess_file s (some "<command-line>") r now = s := by
        simp [start_preprocess_file]
      rw [hnoop]
      simp [effNamesOp]
    · have heff : (effNamesOp (Op.enterFile (some f0) r now)).length = 1 := by
        simp [effNamesOp, hcmd]
      rw [heff]
      rcases start_preprocess_file_shape s f0 r now hcmd with ⟨fkey, r', heq, -⟩
      dsimp only at heq
      rw [heq]
      match r' with
      | none =>
        split_ifs <;> simp
      | some (rf, rd) =>
        have hreg := (ppParts_eq_iff (register_frame
          { (if containsA fkey s.preprocess_start = true then s
             else { s with preprocess_start := mapSet fkey now s.preprocess_start }) with
            preprocessing_stack :=
              fkey :: (if containsA fkey s.preprocess_start = true then s
                       else { s with
                         preprocess_start :=
                           mapSet fkey now s.preprocess_start }).preprocessing_stack }
          rf rd).1).2.2
        rw [hreg]
        split_ifs <;> simp

theorem run_of_fileOpsDepth : ∀ (ops : List Op) (k d : Nat) (s : TrackingState),
    fileOpsDepth k ops = some d → s.preprocessing_stack.length = k →
    ∃ s', run s ops = some s' ∧ s'.preprocessing_stack.length = d
  | [], k, d, s, hdep, hlen => by
    rw [fileOpsDepth] at hdep
    cases hdep
    exact ⟨s, rfl, hlen⟩
  | Op.enterFile f r n :: rest, k, d, s, hdep, hlen => by
    rw [fileOpsDepth] at hdep
    have hlen' := start_preprocess_file_stack_len s f r n
    rw [hlen] at hlen'
    rcases run_of_fileOpsDepth rest _ d _ hdep hlen' with ⟨s', hrun, hfin⟩
    exact ⟨s', by simp only [run, step]; exact hrun, hfin⟩
  | Op.leaveFile n :: rest, k, d, s, hdep, hlen => by
    rw [fileOpsDepth] at hdep
    by_cases hk : k = 0
    · rw [if_pos hk] at hdep
      cases hdep
    · rw [if_neg hk] at hdep
      cases hstk : s.preprocessing_stack with
      | nil =>
        rw [hstk] at hlen
        exact absurd hlen.symm hk
      | cons top tl =>
        have hstep : end_preprocess_file s n = some
            { (if containsA top s.preprocess_end then s
               else { s with preprocess_end := mapSet top n s.preprocess_end }) with
              preprocessing_stack := tl, last_function_parsed_ts := n + 3 } := by
          simp only [end_preprocess_file, hstk]
        have hlen1 : tl.length = k - 1 := by
          rw [hstk] at hlen
          simp at hlen
          omega
        have hlen2 :
            ({ (if containsA top s.preprocess_end then s
                else { s with preprocess_end := mapSet top n s.preprocess_end }) with
               preprocessing_stack := tl,
               last_function_parsed_ts := n + 3 } :
              TrackingState).preprocessing_stack.length = k - 1 := hlen1
        rcases run_of_fileOpsDepth rest (k - 1) d _ hdep hlen2 with ⟨s', hrun, hfin⟩
        refine ⟨s', ?_, hfin⟩
        simp only [run, step, hstep]
        exact hrun
  | Op.enterPass p n :: rest, k, d, s, hdep, hlen => by
    have hnone : fileOpsDepth k (Op.enterPass p n :: rest) = none := rfl
    rw [hnone] at hdep
    cases hdep
  | Op.finishFunction i n :: rest, k, d, s, hdep, hlen => by
    have hnone : fileOpsDepth k (Op.finishFunction i n :: rest) = none := rfl
    rw [hnone] at hdep
    cases hdep
  | Op.finishStage c :: rest, k, d, s, hdep, hlen => by
    have hnone : fileOpsDepth k (Op.finishStage c :: rest) = none := rfl
    rw [hnone] at hdep
    cases hdep

theorem finish_stage_empties : ∀ (clock : List (Int × Int)) (s : TrackingState),
    s.preprocessing_stack.length ≤ clock.length →
    (finish_preprocessing_stage s clock).preprocessing_stack = []
  | [], s, h => by
    rw [finish_preprocessing_stage]
    simpa using h
  | (t1, t2) :: rest, s, h => by
    by_cases he : s.preprocessing_stack.isEmpty
    · rw [finish_preprocessing_stage, if_pos he]
      exact List.isEmpty_iff.mp he
    · rw [finish_preprocessing_stage, if_neg he]
      cases hstk : s.preprocessing_stack with
      | nil => exact absurd (by rw [hstk]; rfl) he
      | cons top tl =>
        have hstep : end_preprocess_file s t1 = some
            { (if containsA top s.preprocess_end then s
               else { s with preprocess_end := mapSet top t1 s.preprocess_end }) with
              preprocessing_stack := tl, last_function_parsed_ts := t1 + 3 } := by
          simp only [end_preprocess_file, hstk]
        rw [hstep]
        apply finish_stage_empties rest
    -- remaining goal: stack length bound for the recursive call
        show tl.length ≤ rest.length
        rw [hstk] at h
        simp only [List.length_cons] at h
        omega

/-! ### The preprocessing writer -/

theorem ppWriteGo_spec (s : TrackingState) :
    ∀ entries : List (String × Int),
      (∀ p ∈ entries, p.1 ≠ CIRCULAR_POISON_VALUE →
        ∃ en, lookupA p.1 s.preprocess_end = some en ∧ p.2 ≤ en) →
      ∃ evs, ppWriteGo s entries = some evs ∧
        evs.length = countNonPoison entries ∧
        ∀ e ∈ evs, e.ts.start ≤ e.ts.end_
  | [], _ => ⟨[], rfl, rfl, by simp⟩
  | (f, st) :: rest, hh => by
    rcases ppWriteGo_spec s rest (fun p hp => hh p (List.mem_cons_of_mem _ hp)) with
      ⟨evs, hw, hlen, hok⟩
    by_cases hf : f = CIRCULAR_POISON_VALUE
    · refine ⟨evs, ?_, ?_, hok⟩
      · rw [ppWriteGo, if_pos hf]
        exact hw
      · simp [countNonPoison, hf, hlen]
    · rcases hh (f, st) (List.mem_cons_self _ _) hf with ⟨en, hen, hle⟩
      refine ⟨TraceEvent.mk (normalized_file_name s f) EventCategory.PREPROCESS
        ⟨st, en⟩ (false, []) :: evs, ?_, ?_, ?_⟩
      · rw [ppWriteGo, if_neg hf, hen, hw]
        rfl
      · simp only [countNonPoison, hf, if_false, List.length_cons, hlen]
        omega
      · intro e he
        rcases List.mem_cons.mp he with rfl | he'
        · exact hle
        · exact hok e he'

theorem normalized_file_name_ne_poison (s : TrackingState) (hclean : NfmClean s)
    (f : String) (hf : f ≠ CIRCULAR_POISON_VALUE) :
    normalized_file_name s f ≠ CIRCULAR_POISON_VALUE := by
  unfold normalized_file_name
  cases hl : lookupA f s.normalized_files_map with
  | none => exact hf
  | some nn =>
    dsimp only
    split_ifs
    · exact hf
    · exact hclean f nn hl

theorem ppWriteGo_names (s : TrackingState) (hclean : NfmClean s) :
    ∀ (entries : List (String × Int)) (evs : List TraceEvent),
      ppWriteGo s entries = some evs →
      evs.length = countNonPoison entries ∧
      ∀ e ∈ evs, e.name ≠ CIRCULAR_POISON_VALUE
  | [], evs, h => by
    cases h
    exact ⟨rfl, by simp⟩
  | (f, st) :: rest, evs, h => by
    by_cases hf : f = CIRCULAR_POISON_VALUE
    · rw [ppWriteGo, if_pos hf] at h
      rcases ppWriteGo_names s hclean rest evs h with ⟨hlen, hnames⟩
      exact ⟨by simp [countNonPoison, hf, hlen], hnames⟩
    · rw [ppWriteGo, if_neg hf] at h
      cases hen : lookupA f s.preprocess_end with
      | none => rw [hen] at h; cases h
      | some en =>
        rw [hen] at h
        cases hrest : ppWriteGo s rest with
        | none => rw [hrest] at h; cases h
        | some evs' =>
          rw [hrest] at h
          simp only [Option.map_some] at h
          cases h
          rcases ppWriteGo_names s hclean rest evs' hrest with ⟨hlen, hnames⟩
          refine ⟨by simp only [countNonPoison, hf, if_false, List.length_cons, hlen]; omega,
            fun e he => ?_⟩
          rcases List.mem_cons.mp he with rfl | he'
          · exact normalized_file_name_ne_poison s hclean f hf
          · exact hnames e he'

theorem countNonPoison_eq_filter : ∀ m : List (String × Int),
    countNonPoison m =
      ((m.map Prod.fst).filter (fun g => !(g == CIRCULAR_POISON_VALUE))).length
  | [] => rfl
  | (f, st) :: rest => by
    by_cases hf : f = CIRCULAR_POISON_VALUE
    · simp [countNonPoison, hf, countNonPoison_eq_filter rest]
    · simp [countNonPoison, hf, countNonPoison_eq_filter rest, Nat.add_comm]

theorem countNonPoison_card {names : List String} {m : List (String × Int)}
    (hnd : (m.map Prod.fst).Nodup)
    (hkm : ∀ f, f ≠ CIRCULAR_POISON_VALUE → (containsA f m = true ↔ f ∈ names))
    (hnp : ∀ g ∈ names, g ≠ CIRCULAR_POISON_VALUE) :
    countNonPoison m = names.toFinset.card := by
  rw [countNonPoison_eq_filter]
  have hfnd : ((m.map Prod.fst).filter
      (fun g => !(g == CIRCULAR_POISON_VALUE))).Nodup := hnd.filter _
  have hmem : ∀ g, g ∈ (m.map Prod.fst).filter
      (fun g => !(g == CIRCULAR_POISON_VALUE)) ↔ g ∈ names := by
    intro g
    rw [List.mem_filter]
    constructor
    · rintro ⟨hg, hp⟩
      have hgp : g ≠ CIRCULAR_POISON_VALUE := by
        simpa using hp
      exact (hkm g hgp).mp ((containsA_iff_mem_keys g m).mpr hg)
    · intro hg
      have hgp := hnp g hg
      refine ⟨(containsA_iff_mem_keys g m).mp ((hkm g hgp).mpr hg), by simpa using hgp⟩
  have hsetev : ((m.map Prod.fst).filter
      (fun g => !(g == CIRCULAR_POISON_VALUE))).toFinset = names.toFinset := by
    apply Finset.ext
    intro a
    simp only [List.mem_toFinset]
    exact hmem a
  rw [← List.toFinset_card_of_nodup hfnd, hsetev]

theorem ppInv_initial (c : Int) : PpInv c [] initialState := by
  refine ⟨List.nodup_nil, ?_, ?_, ?_, ?_, ?_, ?_⟩
  · intro f _
    simp [containsA, lookupA, initialState]
  · intro f v hl
    simp [lookupA, initialState] at hl
  · intro f u v hl
    simp [lookupA, initialState] at hl
  · intro f h
    simp [containsA, lookupA, initialState] at h
  · intro f h
    simp [initialState] at h
  · intro f h
    simp [containsA, lookupA, initialState] at h

/-- C4: for a well-nested sequence of `enter_file`/`leave_file` calls under
a monotone clock, followed by finalization with a drain clock long enough
for the leftover stack, the writer succeeds and emits exactly one
PREPROCESS event per distinct non-sentinel file entered, each with
`start ≤ end_`. -/
theorem C4_well_nested_preprocess_events (ops : List Op) (d : Nat) (c0 : Int)
    (clock : List (Int × Int)) (s1 : TrackingState)
    (hsafe : fileOpsDepth 0 ops = some d)
    (hdrain : d ≤ clock.length)
    (hclk : ChainFrom (fun a b => a ≤ b) c0 (readings ops ++ ppFlat clock))
    (hnp : ∀ g ∈ effNames ops, g ≠ CIRCULAR_POISON_VALUE)
    (hrun : run initialState ops = some s1) :
    ∃ evs, write_preprocessing_events s1 clock = some evs ∧
      evs.length = (effNames ops).toFinset.card ∧
      ∀ e ∈ evs, e.ts.start ≤ e.ts.end_ := by
  rcases (chainFrom_append c0 (readings ops) (ppFlat clock)).mp hclk with ⟨hclk1, hclk2⟩
  have inv1 : PpInv (lastOf c0 (readings ops)) ([] ++ effNames ops) s1 :=
    ppInv_run ops (ppInv_initial c0) hclk1 hrun
  rw [List.nil_append] at inv1
  have inv4 := ppInv_finish_stage clock inv1 hclk2
  rcases run_of_fileOpsDepth ops 0 d initialState hsafe rfl with ⟨s1', hrun', hlen'⟩
  rw [hrun] at hrun'
  cases hrun'
  have hempty : (finish_preprocessing_stage s1 clock).preprocessing_stack = [] :=
    finish_stage_empties clock s1 (by rw [hlen']; exact hdrain)
  have hents : ∀ p ∈ (finish_preprocessing_stage s1 clock).preprocess_start,
      p.1 ≠ CIRCULAR_POISON_VALUE →
      ∃ en, lookupA p.1 (finish_preprocessing_stage s1 clock).preprocess_end = some en ∧
        p.2 ≤ en := by
    rintro ⟨g, st⟩ hmem hg
    have hlk : lookupA g (finish_preprocessing_stage s1 clock).preprocess_start =
        some st := mem_lookupA_nodup g st _ inv4.nodup hmem
    have hcg : containsA g (finish_preprocessing_stage s1 clock).preprocess_start =
        true := by simp [containsA, hlk]
    cases hce : containsA g (finish_preprocessing_stage s1 clock).preprocess_end with
    | false =>
      have := inv4.open_on_stack g hcg hce
      rw [hempty] at this
      simp at this
    | true =>
      rw [containsA] at hce
      cases hlv : lookupA g (finish_preprocessing_stage s1 clock).preprocess_end with
      | none => rw [hlv] at hce; cases hce
      | some en =>
        exact ⟨en, rfl, inv4.pair_le g st en hlk hlv⟩
  rcases ppWriteGo_spec (finish_preprocessing_stage s1 clock) _ hents with
    ⟨evs, hw, hlen, hok⟩
  refine ⟨evs, hw, ?_, hok⟩
  rw [hlen]
  exact countNonPoison_card inv4.nodup inv4.keys_match hnp

/-- Witness for C4 at a concrete input: enter `"a"`, enter `"b"`, leave,
leave, at times 1..4; finalization with an empty drain clock emits two
PREPROCESS events. -/
theorem C4_well_nested_preprocess_events_witness :
    ∃ evs,
      write_preprocessing_events
        ((run initialState
          [Op.enterFile (some "a") none 1, Op.enterFile (some "b") none 2,
           Op.leaveFile 3, Op.leaveFile 4]).getD initialState) [] = some evs ∧
      evs.length =
        (effNames [Op.enterFile (some "a") none 1, Op.enterFile (some "b") none 2,
           Op.leaveFile 3, Op.leaveFile 4]).toFinset.card ∧
      ∀ e ∈ evs, e.ts.start ≤ e.ts.end_ := by
  have h := C4_well_nested_preprocess_events
    [Op.enterFile (some "a") none 1, Op.enterFile (some "b") none 2,
     Op.leaveFile 3, Op.leaveFile 4] 0 0 []
    ((run initialState
      [Op.enterFile (some "a") none 1, Op.enterFile (some "b") none 2,
       Op.leaveFile 3, Op.leaveFile 4]).getD initialState)
    (by decide) (by decide)
    ⟨by decide, by decide, by decide, by decide, trivial⟩
    (by decide) rfl
  exact h

/-- C5: circular includes are harmless.  Entering a file that is still open
on the stack (it has a start but no end) pushes the sentinel poison value
instead of the file, records nothing new for the file and skips
registration; entering never fails; and after any poison-free run the
start-map keys are pairwise distinct, so finalization emits at most one
PREPROCESS event per file - one per distinct non-poison key - and no event
whose name is the sentinel. -/
theorem C5_circular_include_sentinel (ops : List Op) (c0 : Int)
    (clock : List (Int × Int)) (s1 : TrackingState)
    (hfree : ∀ op ∈ ops, opPoisonFree op)
    (hclk : ChainFrom (fun a b => a ≤ b) c0 (readings ops ++ ppFlat clock))
    (hrun : run initialState ops = some s1) :
    (∀ (t : TrackingState) (f : String) (r : Option (String × String)) (now : Int),
      f ≠ "<command-line>" → f ≠ CIRCULAR_POISON_VALUE →
      containsA f t.preprocess_start = true →
      containsA f t.preprocess_end = false →
      (start_preprocess_file t (some f) r now).preprocessing_stack =
        CIRCULAR_POISON_VALUE :: t.preprocessing_stack ∧
      lookupA f (start_preprocess_file t (some f) r now).preprocess_start =
        lookupA f t.preprocess_start ∧
      (start_preprocess_file t (some f) r now).preprocess_end =
        t.preprocess_end ∧
      normParts (start_preprocess_file t (some f) r now) = normParts t) ∧
    (∀ (t : TrackingState) (f : Option String) (r : Option (String × String))
        (now : Int), (step t (Op.enterFile f r now)).isSome = true) ∧
    ((finish_preprocessing_stage s1 clock).preprocess_start.map Prod.fst).Nodup ∧
    ∀ evs, write_preprocessing_events s1 clock = some evs →
      evs.length =
        countNonPoison (finish_preprocessing_stage s1 clock).preprocess_start ∧
      ∀ e ∈ evs, e.name ≠ CIRCULAR_POISON_VALUE := by
  rcases (chainFrom_append c0 (readings ops) (ppFlat clock)).mp hclk with ⟨hclk1, hclk2⟩
  have inv1 := ppInv_run ops (ppInv_initial c0) hclk1 hrun
  have inv4 := ppInv_finish_stage clock inv1 hclk2
  have hcleaninit : NfmClean initialState := by
    intro k v hl
    simp [lookupA, initialState] at hl
  have hclean1 : NfmClean s1 := nfmClean_run ops hcleaninit hfree hrun
  have hclean4 : NfmClean (finish_preprocessing_stage s1 clock) :=
    nfmClean_of_normParts (finish_preprocessing_stage_frame s1 clock).1 hclean1
  refine ⟨?_, ?_, inv4.nodup, ?_⟩
  · intro t f r now hcmd hfp hco hce
    have hcirc :
        (containsA f t.preprocess_start && !containsA f t.preprocess_end) = true := by
      rw [hco, hce]
      rfl
    rcases start_preprocess_file_shape t f r now hcmd with ⟨fkey, r', heq, hcase⟩
    rw [if_pos hcirc] at hcase
    rcases hcase with ⟨hfk, hr'⟩
    dsimp only at heq
    rw [hfk, hr'] at heq
    rw [heq]
    by_cases hkp : containsA CIRCULAR_POISON_VALUE t.preprocess_start = true
    · rw [if_pos hkp]
      exact ⟨rfl, rfl, rfl, rfl⟩
    · rw [if_neg hkp]
      refine ⟨rfl, ?_, rfl, rfl⟩
      exact lookupA_mapSet_ne CIRCULAR_POISON_VALUE f now (Ne.symm hfp) _
  · intro t f r now
    rfl
  · intro evs hw
    unfold write_preprocessing_events at hw
    exact ppWriteGo_names _ hclean4 _ evs hw

/-- Witness for C5 at a concrete input: enter `"a"`, then enter `"a"` again
while it is still open - the second push is the sentinel; after finalizing
with a drain clock of length 2, exactly one event is emitted and it is not
named by the sentinel. -/
theorem C5_circular_include_sentinel_witness :
    (start_preprocess_file
        ((run initialState [Op.enterFile (some "a") none 1]).getD initialState)
        (some "a") none 2).preprocessing_stack =
      [CIRCULAR_POISON_VALUE, "a"] ∧
    ∀ evs,
      write_preprocessing_events
        ((run initialState
          [Op.enterFile (some "a") none 1, Op.enterFile (some "a") none 2])
            |>.getD initialState) [(3, 4), (5, 6)] = some evs →
      evs.length = countNonPoison (finish_preprocessing_stage
        ((run initialState
          [Op.enterFile (some "a") none 1, Op.enterFile (some "a") none 2])
            |>.getD initialState) [(3, 4), (5, 6)]).preprocess_start ∧
      ∀ e ∈ evs, e.name ≠ CIRCULAR_POISON_VALUE := by
  have h := C5_circular_include_sentinel
    [Op.enterFile (some "a") none 1, Op.enterFile (some "a") none 2] 0
    [(3, 4), (5, 6)]
    ((run initialState
      [Op.enterFile (some "a") none 1, Op.enterFile (some "a") none 2])
        |>.getD initialState)
    (by
      intro op hop
      simp only [List.mem_cons, List.mem_singleton] at hop
      rcases hop with rfl | hop
      · exact ⟨by rintro g ⟨rfl⟩; decide, by rintro p ⟨⟩⟩
      · rcases hop with rfl | hop
        · exact ⟨by rintro g ⟨rfl⟩; decide, by rintro p ⟨⟩⟩
        · cases hop)
    ⟨by decide, by decide, by decide, by decide, by decide, by decide, trivial⟩
    rfl
  refine ⟨?_, h.2.2.2⟩
  exact (h.1 ((run initialState [Op.enterFile (some "a") none 1]).getD initialState)
    "a" none 2 (by decide) (by decide) (by decide) (by decide)).1

/-! ### Preservation of the event-span invariant under a 6ns-advancing clock -/

theorem evInv_mono {c c' : Int} {s : TrackingState} (h : c ≤ c')
    (inv : EvInv c s) : EvInv c' s :=
  ⟨le_trans inv.cursor_le (by linarith),
   le_trans inv.pass_start_le (by linarith),
   inv.pass_ok, inv.fn_ok, inv.scope_ok,
   fun e he => le_trans (inv.scope_last_le e he) (by linarith)⟩

theorem evInv_transport {c : Int} {s s' : TrackingState}
    (h : evParts s' = evParts s) (inv : EvInv c s) : EvInv c s' := by
  rcases evParts_eq_iff h with ⟨h1, h2, h3, h4, h5⟩
  refine ⟨?_, ?_, ?_, ?_, ?_, ?_⟩
  · rw [h1]
    exact inv.cursor_le
  · rw [h2]
    exact inv.pass_start_le
  · rw [h3]
    exact inv.pass_ok
  · rw [h5]
    exact inv.fn_ok
  · rw [h4]
    exact inv.scope_ok
  · rw [h4]
    exact inv.scope_last_le

theorem end_preprocess_file_cursor {s s' : TrackingState} {now : Int}
    (h : end_preprocess_file s now = some s') :
    s'.last_function_parsed_ts = now + 3 := by
  cases hstk : s.preprocessing_stack with
  | nil => simp [end_preprocess_file, hstk] at h
  | cons top rest =>
    simp only [end_preprocess_file, hstk] at h
    split_ifs at h <;> (cases h; rfl)

theorem evInv_end_preprocess_file {c : Int} {s s' : TrackingState} (now : Int)
    (inv : EvInv c s) (hc : c ≤ now)
    (h : end_preprocess_file s now = some s') : EvInv now s' := by
  rcases end_preprocess_file_frame s now s' h with ⟨-, -, h3, h4, h5, h6, -⟩
  refine ⟨?_, ?_, ?_, ?_, ?_, ?_⟩
  · rw [end_preprocess_file_cursor h]
  · rw [h3]
    exact le_trans inv.pass_start_le (by linarith)
  · rw [h4]
    exact inv.pass_ok
  · rw [h6]
    exact inv.fn_ok
  · rw [h5]
    exact inv.scope_ok
  · rw [h5]
    exact fun e he => le_trans (inv.scope_last_le e he) (by linarith)

theorem evInv_finish_stage : ∀ (clock : List (Int × Int)) {c : Int}
    {s : TrackingState}, EvInv c s →
    ChainFrom (fun a b => a + 6 ≤ b) c (ppFlat clock) →
    EvInv (lastOf c (ppFlat clock)) (finish_preprocessing_stage s clock)
  | [], _, _, inv, _ => inv
  | (t1, t2) :: rest, c, s, inv, hchain => by
    have hflat : ppFlat ((t1, t2) :: rest) = t1 :: t2 :: ppFlat rest := by
      simp [ppFlat]
    rw [hflat] at hchain ⊢
    rcases hchain with ⟨h1, h2, h3⟩
    have hmono : ChainFrom (fun a b => a ≤ b) t2 (ppFlat rest) :=
      chainFrom_imp (fun a b hab => by linarith) t2 (ppFlat rest) h3
    have hlast : lastOf c (t1 :: t2 :: ppFlat rest) = lastOf t2 (ppFlat rest) := rfl
    rw [hlast]
    have ht2last : t2 ≤ lastOf t2 (ppFlat rest) := le_lastOf t2 (ppFlat rest) hmono
    by_cases he : s.preprocessing_stack.isEmpty
    · rw [finish_preprocessing_stage, if_pos he]
      exact evInv_mono (by linarith) inv
    · rw [finish_preprocessing_stage, if_neg he]
      cases hstep : end_preprocess_file s t1 with
      | none => exact evInv_mono (by linarith) inv
      | some s1 =>
        have inv1 : EvInv t1 s1 :=
          evInv_end_preprocess_file t1 inv (by linarith) hstep
        have inv2 : EvInv t2 { s1 with last_function_parsed_ts := t2 } := by
          refine ⟨?_, ?_, inv1.pass_ok, inv1.fn_ok, inv1.scope_ok, ?_⟩
          · show t2 ≤ t2 + 3
            linarith
          · exact le_trans inv1.pass_start_le (by linarith)
          · exact fun e he' => le_trans (inv1.scope_last_le e he') (by linarith)
        exact evInv_finish_stage rest inv2 h3

theorem evInv_start_opt_pass {c : Int} {s : TrackingState} (p : OptPass)
    (now : Int) (inv : EvInv c s) (hc : c + 6 ≤ now) :
    EvInv now (start_opt_pass s p now) := by
  unfold start_opt_pass
  dsimp only
  cases hlp : s.last_pass.pass with
  | none =>
    refine ⟨?_, ?_, inv.pass_ok, inv.fn_ok, inv.scope_ok, ?_⟩
    · exact le_trans inv.cursor_le (by linarith)
    · show now + 1 ≤ now + 1
      linarith
    · exact fun e he => le_trans (inv.scope_last_le e he) (by linarith)
  | some w =>
    refine ⟨?_, ?_, ?_, inv.fn_ok, inv.scope_ok, ?_⟩
    · exact le_trans inv.cursor_le (by linarith)
    · show now + 1 ≤ now + 1
      linarith
    · intro e he
      rcases List.mem_append.mp he with he' | he'
      · exact inv.pass_ok e he'
      · simp only [List.mem_singleton] at he'
        subst he'
        show s.last_pass.ts.start ≤ now
        exact le_trans inv.pass_start_le (by linarith)
    · exact fun e he => le_trans (inv.scope_last_le e he) (by linarith)

theorem evInv_end_parse_function {c : Int} {s : TrackingState}
    (i : FinishedFunction) (now : Int) (inv : EvInv c s) (hc : c + 6 ≤ now) :
    EvInv now (end_parse_function s i now) := by
  have hcur := inv.cursor_le
  have hfn_new : ∀ e ∈ s.function_events ++
      [FunctionEvent.mk i.name i.file_name ⟨s.last_function_parsed_ts + 3, now⟩],
      e.ts.start ≤ e.ts.end_ := by
    intro e he
    rcases List.mem_append.mp he with he' | he'
    · exact inv.fn_ok e he'
    · simp only [List.mem_singleton] at he'
      subst he'
      show s.last_function_parsed_ts + 3 ≤ now
      linarith
  unfold end_parse_function
  cases i.scope_name with
  | none =>
    dsimp only
    refine ⟨?_, ?_, inv.pass_ok, hfn_new, inv.scope_ok, ?_⟩
    · show now ≤ now + 3
      linarith
    · exact le_trans inv.pass_start_le (by linarith)
    · exact fun e he => le_trans (inv.scope_last_le e he) (by linarith)
  | some sn =>
    dsimp only
    cases hlast : s.scope_events.getLast? with
    | none =>
      dsimp only
      refine ⟨?_, ?_, inv.pass_ok, hfn_new, ?_, ?_⟩
      · show now ≤ now + 3
        linarith
      · exact le_trans inv.pass_start_le (by linarith)
      · intro e he
        simp only [List.mem_singleton] at he
        subst he
        show s.last_function_parsed_ts + 3 - 1 ≤ now + 1
        linarith
      · intro e he
        simp only [List.getLast?_singleton, Option.some.injEq] at he
        subst he
        show s.last_function_parsed_ts + 3 - 1 ≤ now + 1
        linarith
    | some lastEv =>
      have hlastle : lastEv.ts.start ≤ c + 1 := inv.scope_last_le lastEv hlast
      dsimp only
      split_ifs with hcond
      · refine ⟨?_, ?_, inv.pass_ok, hfn_new, ?_, ?_⟩
        · show now ≤ now + 3
          linarith
        · exact le_trans inv.pass_start_le (by linarith)
        · intro e he
          rcases List.mem_append.mp he with he' | he'
          · exact inv.scope_ok e (List.mem_of_mem_dropLast he')
          · simp only [List.mem_singleton] at he'
            subst he'
            show lastEv.ts.start ≤ now + 1
            linarith
        · intro e he
          rw [List.getLast?_concat] at he
          cases he
          show lastEv.ts.start ≤ now + 1
          linarith
      · refine ⟨?_, ?_, inv.pass_ok, hfn_new, ?_, ?_⟩
        · show now ≤ now + 3
          linarith
        · exact le_trans inv.pass_start_le (by linarith)
        · intro e he
          rcases List.mem_append.mp he with he' | he'
          · exact inv.scope_ok e he'
          · simp only [List.mem_singleton] at he'
            subst he'
            show s.last_function_parsed_ts + 3 - 1 ≤ now + 1
            linarith
        · intro e he
          rw [List.getLast?_concat] at he
          cases he
          show s.last_function_parsed_ts + 3 - 1 ≤ now + 1
          linarith

theorem evInv_step {c : Int} {s s' : TrackingState} {op : Op} (inv : EvInv c s)
    (hclk : ChainFrom (fun a b => a + 6 ≤ b) c (opReadings op))
    (h : step s op = some s') : EvInv (lastOf c (opReadings op)) s' := by
  cases op with
  | enterFile f r n =>
    cases h
    have hl : lastOf c (opReadings (Op.enterFile f r n)) = n := rfl
    rw [hl]
    have h6 : c + 6 ≤ n := hclk.1
    exact evInv_mono (by linarith)
      (evInv_transport (start_preprocess_file_frame s f r n).1 inv)
  | leaveFile n =>
    have h6 : c + 6 ≤ n := hclk.1
    exact evInv_end_preprocess_file n inv (by linarith) h
  | enterPass p n =>
    cases h
    exact evInv_start_opt_pass p n inv hclk.1
  | finishFunction i n =>
    cases h
    exact evInv_end_parse_function i n inv hclk.1
  | finishStage clk =>
    cases h
    exact evInv_finish_stage clk inv hclk

theorem evInv_run : ∀ (ops : List Op) {c : Int} {s s' : TrackingState},
    EvInv c s → ChainFrom (fun a b => a + 6 ≤ b) c (readings ops) →
    run s ops = some s' → EvInv (lastOf c (readings ops)) s'
  | [], c, s, s', inv, _, h => by
    cases h
    exact inv
  | op :: rest, c, s, s', inv, hclk, h => by
    rw [readings_cons] at hclk ⊢
    rcases (chainFrom_append c (opReadings op) (readings rest)).mp hclk with ⟨h1, h2⟩
    simp only [run] at h
    cases hstep : step s op with
    | none => rw [hstep] at h; cases h
    | some s1 =>
      rw [hstep] at h
      rw [lastOf_append]
      exact evInv_run rest (evInv_step inv h1 hstep) h2 h

theorem evInv_initial : EvInv 0 initialState := by
  refine ⟨?_, ?_, ?_, ?_, ?_, ?_⟩
  · show (0 : Int) ≤ 0 + 3
    norm_num
  · show (0 : Int) ≤ 0 + 1
    norm_num
  · intro e he
    simp [initialState] at he
  · intro e he
    simp [initialState] at he
  · intro e he
    simp [initialState] at he
  · intro e he
    simp [initialState] at he

theorem passWriteGo_ts : ∀ (pes : List OptPassEvent) (evs : List TraceEvent),
    passWriteGo pes = some evs → ∀ e ∈ evs, ∃ pe ∈ pes, e.ts = pe.ts
  | [], evs, h => by
    cases h
    intro e he
    simp at he
  | pe :: rest, evs, h => by
    rw [passWriteGo] at h
    cases hp : pe.pass with
    | none => rw [hp] at h; cases h
    | some p =>
      rw [hp] at h
      cases hrest : passWriteGo rest with
      | none => rw [hrest] at h; cases h
      | some evs' =>
        rw [hrest] at h
        simp only [Option.map_some] at h
        cases h
        intro e he
        rcases List.mem_cons.mp he with rfl | he'
        · exact ⟨pe, List.mem_cons_self _ _, rfl⟩
        · rcases passWriteGo_ts rest evs' hrest e he' with ⟨pe', hpe', hts⟩
          exact ⟨pe', List.mem_cons_of_mem _ hpe', hts⟩

theorem ppWriteGo_ok (s : TrackingState)
    (hpair : ∀ f u v, lookupA f s.preprocess_start = some u →
      lookupA f s.preprocess_end = some v → u ≤ v)
    (hnd : (s.preprocess_start.map Prod.fst).Nodup) :
    ∀ (entries : List (String × Int)) (evs : List TraceEvent),
      (∀ p ∈ entries, p ∈ s.preprocess_start) →
      ppWriteGo s entries = some evs →
      ∀ e ∈ evs, e.ts.start ≤ e.ts.end_
  | [], evs, _, h => by
    cases h
    intro e he
    simp at he
  | (f, st) :: rest, evs, hsub, h => by
    by_cases hf : f = CIRCULAR_POISON_VALUE
    · rw [ppWriteGo, if_pos hf] at h
      exact ppWriteGo_ok s hpair hnd rest evs
        (fun p hp => hsub p (List.mem_cons_of_mem _ hp)) h
    · rw [ppWriteGo, if_neg hf] at h
      cases hen : lookupA f s.preprocess_end with
      | none => rw [hen] at h; cases h
      | some en =>
        rw [hen] at h
        cases hrest : ppWriteGo s rest with
        | none => rw [hrest] at h; cases h
        | some evs' =>
          rw [hrest] at h
          simp only [Option.map_some] at h
          cases h
          intro e he
          rcases List.mem_cons.mp he with rfl | he'
          · show st ≤ en
            have hlk : lookupA f s.preprocess_start = some st :=
              mem_lookupA_nodup f st _ hnd (hsub (f, st) (List.mem_cons_self _ _))
            exact hpair f st en hlk hen
          · exact ppWriteGo_ok s hpair hnd rest evs'
              (fun p hp => hsub p (List.mem_cons_of_mem _ hp)) hrest e he'

/-- C3 counterexample: a single `end_parse_function` call with the clock
reading 0 from the initial state emits a FUNCTION TraceEvent spanning
`⟨3, 0⟩` - its start exceeds its end - so the claimed invariant
`start ≤ end` for every emitted event under every clock (including a
stalled one) is false. -/
theorem C3_inverted_span_counterexample :
    write_all_functions (runFunctions initialState
      [(FinishedFunction.mk "f" "a.cc" none EventCategory.UNKNOWN, 0)]) =
      [TraceEvent.mk "f" EventCategory.FUNCTION ⟨3, 0⟩ (true, [("file", "a.cc")])] ∧
    ¬ (3 : Int) ≤ 0 :=
  ⟨rfl, by decide⟩

/-- C3 (amended): provided consecutive clock readings advance by at least
6ns (so the epsilon adjustments of up to 3ns can never overtake the
clock), every TraceEvent emitted at finalization by any tracker satisfies
`start ≤ end_`.  A stalled clock violates the invariant, as the
counterexample shows. -/
theorem C3_spans_wellformed (ops : List Op) (clock : List (Int × Int))
    (s1 : TrackingState) (evs : List TraceEvent)
    (hclk : ChainFrom (fun a b => a + 6 ≤ b) 0 (readings ops ++ ppFlat clock))
    (hrun : run initialState ops = some s1)
    (hw : write_all_events s1 clock = some evs) :
    ∀ e ∈ evs, e.ts.start ≤ e.ts.end_ := by
  rcases (chainFrom_append 0 (readings ops) (ppFlat clock)).mp hclk with ⟨hclk1, hclk2⟩
  have hmono1 : ChainFrom (fun a b => a ≤ b) 0 (readings ops) :=
    chainFrom_imp (fun a b hab => by linarith) 0 (readings ops) hclk1
  have hmono2 : ChainFrom (fun a b => a ≤ b) (lastOf 0 (readings ops)) (ppFlat clock) :=
    chainFrom_imp (fun a b hab => by linarith) _ (ppFlat clock) hclk2
  have einv1 := evInv_run ops evInv_initial hclk1 hrun
  have einv4 := evInv_finish_stage clock einv1 hclk2
  have pinv1 := ppInv_run ops (ppInv_initial 0) hmono1 hrun
  have pinv4 := ppInv_finish_stage clock pinv1 hmono2
  unfold write_all_events at hw
  cases hpp : write_preprocessing_events s1 clock with
  | none => rw [hpp] at hw; cases hw
  | some ppevs =>
    cases hps : write_opt_pass_events (finish_preprocessing_stage s1 clock) with
    | none => rw [hpp, hps] at hw; cases hw
    | some psevs =>
      rw [hpp, hps] at hw
      cases hw
      intro e he
      rcases List.mem_append.mp he with he1 | hefn
      · rcases List.mem_append.mp he1 with he2 | hesc
        · rcases List.mem_append.mp he2 with hepp | heps
          · -- preprocessing event
            unfold write_preprocessing_events at hpp
            exact ppWriteGo_ok (finish_preprocessing_stage s1 clock)
              pinv4.pair_le pinv4.nodup _ ppevs (fun p hp => hp) hpp e hepp
          · -- pass event
            rcases passWriteGo_ts _ psevs hps e heps with ⟨pe, hpe, hts⟩
            rw [hts]
            exact einv4.pass_ok pe hpe
        · -- scope event
          rcases List.mem_map.mp hesc with ⟨item, hitem, rfl⟩
          exact einv4.scope_ok item hitem
      · -- function event
        rcases List.mem_map.mp hefn with ⟨item, hitem, rfl⟩
        exact einv4.fn_ok item hitem

/-- Witness for C3 (amended) at a concrete input: one function finished at
time 6 and one pass entered at time 12; finalization emits exactly the
FUNCTION event spanning 3 to 6, a well-formed span. -/
theorem C3_spans_wellformed_witness :
    (TraceEvent.mk "f" EventCategory.FUNCTION ⟨3, 6⟩
      (true, [("file", "a.cc")])).ts.start ≤
      (TraceEvent.mk "f" EventCategory.FUNCTION ⟨3, 6⟩
        (true, [("file", "a.cc")])).ts.end_ := by
  have h := C3_spans_wellformed
    [Op.finishFunction (FinishedFunction.mk "f" "a.cc" none EventCategory.UNKNOWN) 6,
     Op.enterPass (OptPass.mk "p" OptPassType.GIMPLE_PASS 1) 12]
    []
    ((run initialState
      [Op.finishFunction (FinishedFunction.mk "f" "a.cc" none EventCategory.UNKNOWN) 6,
       Op.enterPass (OptPass.mk "p" OptPassType.GIMPLE_PASS 1) 12]).getD initialState)
    [TraceEvent.mk "f" EventCategory.FUNCTION ⟨3, 6⟩ (true, [("file", "a.cc")])]
    ⟨by decide, by decide, trivial⟩ rfl rfl
  exact h _ (List.mem_singleton.mpr rfl)

end Externis
